import Mathlib

/-!
Shallow embedding of the visibility/geometry core of the Wolfengate raycasting
engine: the angle/vector primitives (`src/domain/maths.rs`), the coordinate
types and grid-crossing helpers (`src/domain/topology/coord.rs`), the door
shapes (`src/domain/topology/door.rs`), the per-tile action state machine
(`src/domain/control/actions.rs`) and the recursive projection engine
(`src/domain/topology/projection.rs`).

`f32` values are modelled as real numbers (exact real semantics: no rounding,
no NaN, no signed zero); `u128` microsecond counts as `ℕ`; `i16`/`i32`
coordinates as `ℤ`; `usize`-indexed vectors as lists.  The recursive ray walk
is modelled with an explicit fuel parameter, returning `none` when the fuel
runs out (or when the source would panic on a missing action state); the
termination theorem shows a fuel of the order of `width + height` always
suffices.
-/

namespace Wolfengate

/-- `f32::signum` from Rust: `1.0` for positive values and `+0.0`, `-1.0` for
negative values and `-0.0`.  Real numbers have no `-0.0` and no NaN, so the
model returns `1` for `0`. -/
noncomputable def signum (x : ℝ) : ℝ := if x < 0 then -1 else 1

/-- Truncation toward zero, as used by Rust's float remainder `%`. -/
noncomputable def rustTrunc (x : ℝ) : ℤ := if 0 ≤ x then ⌊x⌋ else ⌈x⌉

/-- Rust's float remainder `a % b`: `a - b * trunc(a / b)` (sign of the
dividend is preserved). -/
noncomputable def rustRem (a b : ℝ) : ℝ := a - b * (rustTrunc (a / b) : ℝ)

/-- `decimal_part` from `src/domain/maths.rs`. -/
noncomputable def decimal_part (number : ℝ) : ℝ := |number| - (⌊|number|⌋ : ℝ)

/-- `between` from `src/domain/maths.rs`. -/
noncomputable def between (min value max : ℝ) : ℝ :=
  if value < min then min else if value > max then max else value

/-- `Angle` from `src/domain/maths.rs`: a raw radian value. -/
structure Angle where
  radiant : ℝ

/-- `Angle::new`: normalizes via `radians % 2π` (sign-preserving). -/
noncomputable def Angle.new (radiant : ℝ) : Angle :=
  ⟨rustRem radiant (2 * Real.pi)⟩

noncomputable def Angle.cos (a : Angle) : ℝ := Real.cos a.radiant

noncomputable def Angle.sin (a : Angle) : ℝ := Real.sin a.radiant

noncomputable def Angle.tan (a : Angle) : ℝ := Real.tan a.radiant

/-- `Angle::add`: raw addition of the stored radians, no renormalization. -/
def Angle.add (a other : Angle) : Angle := ⟨a.radiant + other.radiant⟩

/-- `Angle::addition`: renormalizing addition, goes through `Angle::new`. -/
noncomputable def Angle.addition (a angle_to_add : Angle) : Angle :=
  Angle.new (a.radiant + angle_to_add.radiant)

def Angle.to_radiant (a : Angle) : ℝ := a.radiant

noncomputable def Angle.multiplication (a : Angle) (factor : ℝ) : Angle :=
  Angle.new (a.radiant * factor)

/-- `ANGLE_RIGHT = Angle::init(0.0)` (raw constant, no normalization). -/
def ANGLE_RIGHT : Angle := ⟨0⟩

noncomputable def ANGLE_UP : Angle := ⟨Real.pi / 2⟩

noncomputable def ANGLE_DOWN : Angle := ⟨3 * Real.pi / 2⟩

noncomputable def ANGLE_LEFT : Angle := ⟨Real.pi⟩

/-- `ANGLE_240` is an alias of `ANGLE_DOWN` in the source. -/
noncomputable def ANGLE_240 : Angle := ANGLE_DOWN

/-- `Position` from `src/domain/topology/coord.rs`. -/
@[ext]
structure Position where
  x : ℝ
  y : ℝ

/-- `MapPoint` from `src/domain/topology/coord.rs` (`i16` coordinates). -/
structure MapPoint where
  x : ℤ
  y : ℤ

/-- `Vector` from `src/domain/maths.rs`.  `end` is a Lean keyword, hence
the field name `end'`. -/
structure Vector where
  start : Position
  end' : Position

def Vector.new (start end' : Position) : Vector := ⟨start, end'⟩

noncomputable def Vector.length (v : Vector) : ℝ :=
  let x := v.end'.x - v.start.x
  let y := v.end'.y - v.start.y
  Real.sqrt (x * x + y * y)

def Vector.to_origin (v : Vector) : Vector :=
  ⟨⟨0, 0⟩, ⟨v.end'.x - v.start.x, v.end'.y - v.start.y⟩⟩

def Vector.scalar (v vector : Vector) : ℝ :=
  let self_origin := v.to_origin
  let other_origin := vector.to_origin
  self_origin.end'.x * other_origin.end'.x + self_origin.end'.y * other_origin.end'.y

/-- `Vector::angle`: `None` iff the product of the two lengths is zero
(the guard in front of `acos`). -/
noncomputable def Vector.angle (v vector : Vector) : Option Angle :=
  let len := v.length * vector.length
  if len = 0 then none
  else some (Angle.new (Real.arccos (v.scalar vector / len)))

noncomputable def Vector.from_angle (angle : Angle) : Vector :=
  ⟨⟨0, 0⟩, ⟨angle.cos, angle.sin⟩⟩

noncomputable def Position.distance (p position : Position) : ℝ :=
  (Vector.new p position).length

def Position.with_x (p : Position) (x : ℝ) : Position := ⟨x, p.y⟩

def Position.with_y (p : Position) (y : ℝ) : Position := ⟨p.x, y⟩

/-- `Position::round` from `src/domain/topology/coord.rs`: round away from the
current value in the direction of `sign`, never returning `number` itself. -/
noncomputable def Position.round (number sign : ℝ) : ℝ :=
  let rounded := if sign > 0 then (⌈number⌉ : ℝ) else (⌊number⌋ : ℝ)
  if rounded = number then number + sign else rounded

/-- `Position::projection_x`: the crossing of the ray with the next vertical
grid line. -/
noncomputable def Position.projection_x (p : Position) (angle : Angle) : Position :=
  let direction := signum angle.cos
  let next_x := Position.round p.x direction
  (p.with_x next_x).with_y (p.y + angle.tan * (next_x - p.x))

/-- `Position::projection_y`: the crossing of the ray with the next horizontal
grid line.  The source computes `x + (next_y - y) / tan`; when `tan` is zero
the IEEE division produces an infinite abscissa, so the crossing is infinitely
far away and is never selected by the distance comparison in the projection
walk.  This is modelled by returning `none` when `tan = 0`. -/
noncomputable def Position.projection_y (p : Position) (angle : Angle) : Option Position :=
  if angle.tan = 0 then none
  else
    let direction := signum angle.sin
    let next_y := Position.round p.y direction
    some ((p.with_x (p.x + (next_y - p.y) / angle.tan)).with_y next_y)

/-- `Position::to_map_point`: the tile just beyond the crossing, offset by the
signed direction.  The `as i16` cast is modelled as the identity on `ℤ`
(saturation only changes coordinates that are out of the map's range either
way). -/
noncomputable def Position.to_map_point (p : Position) (direction_x direction_y : ℝ) : MapPoint :=
  let offset_x : ℤ := if 0 ≤ direction_x then 0 else 1
  let offset_y : ℤ := if 0 ≤ direction_y then 0 else 1
  ⟨⌊p.x⌋ - offset_x, ⌊p.y⌋ - offset_y⟩

/-- `TextureIndex` from `src/domain/topology/index.rs` (`u128` id). -/
structure TextureIndex where
  id : ℕ
  deriving DecidableEq

/-- `SpeedStats` from `src/domain/actors/actor.rs`. -/
structure SpeedStats where
  units_per_seconds : ℝ

/-- `SpeedStats::to_units`: microseconds to units. -/
noncomputable def SpeedStats.to_units (s : SpeedStats) (microseconds_elasped : ℕ) : ℝ :=
  (microseconds_elasped : ℝ) / 1000000 * s.units_per_seconds

/-- Modelled from the spec: the `Openable` shape descriptors (`Lateral` or
`Central`) with the two-argument `door_column(opening_percentage, offset)`
used by `control/actions.rs` and `topology/projection.rs` are not under
`src/` (the `door.rs` present there is an older revision storing the
percentage in the struct); spec §4.3 describes them as a stateless closed
pair of shapes. -/
inductive Openable where
  | lateral
  | central

/-- Modelled from the spec: `door_column(opening_percentage, offset)`.
Lateral: `offset > 1 - opening_percentage ⇒ None`, otherwise
`Some(offset + opening_percentage)`.  Central: inside the centered band of
width `1 - opening_percentage` the door is present; strictly outside it the
door has retracted (`None` within the open gap would be backwards — the spec
fixes the band `[(1-p)/2, 1-(1-p)/2]` as the *invisible* region, `None`
inside it, shifted texture offsets outside). -/
noncomputable def Openable.door_column : Openable → ℝ → ℝ → Option ℝ
  | .lateral, opening_percentage, offset =>
      if offset > 1 - opening_percentage then none
      else some (offset + opening_percentage)
  | .central, opening_percentage, offset =>
      if (1 - opening_percentage) / 2 < offset ∧ offset < 1 - (1 - opening_percentage) / 2
      then none
      else if offset ≤ (1 - opening_percentage) / 2 then some (offset + opening_percentage / 2)
      else some (offset - opening_percentage / 2)

/-- `ActionState` from `src/domain/control/actions.rs`: the trait has exactly
two implementations (`NothingActionState` and `LinearActionState`), modelled
as a closed union. -/
inductive ActionState where
  | nothing
  | linear (opening_speed : SpeedStats) (activated : Bool) (opening_percentage : ℝ)
      (openable : Openable)

/-- `LinearActionState::new`: not activated, percentage `0`. -/
def LinearActionState.new (opening_speed : SpeedStats) (openable : Openable) : ActionState :=
  .linear opening_speed false 0 openable

/-- `ActionState::elapsed` for both implementations. -/
noncomputable def ActionState.elapsed : ActionState → ℕ → ActionState
  | .nothing, _ => .nothing
  | .linear opening_speed activated opening_percentage openable, microseconds =>
      let direction : ℝ := if activated then 1 else -1
      let increment := opening_speed.to_units microseconds * direction
      let new_percentage := between 0 (opening_percentage + increment) 1
      .linear opening_speed activated new_percentage openable

/-- `ActionState::trigger` for both implementations: flips `activated`,
everything else untouched. -/
def ActionState.trigger : ActionState → ActionState
  | .nothing => .nothing
  | .linear opening_speed activated opening_percentage openable =>
      .linear opening_speed (!activated) opening_percentage openable

/-- `ActionState::openable` (the `Nothing` state hands out a lateral shape). -/
def ActionState.openable : ActionState → Openable
  | .nothing => .lateral
  | .linear _ _ _ openable => openable

/-- `ActionState::activated_percentage`. -/
def ActionState.activated_percentage : ActionState → ℝ
  | .nothing => 0
  | .linear _ _ opening_percentage _ => opening_percentage

/-- `ActionStateBuilder` from `src/domain/control/actions.rs`. -/
structure ActionStateBuilder where
  default_state : ActionState

def ActionStateBuilder.build (b : ActionStateBuilder) : ActionState := b.default_state

/-- `Tile` from `src/domain/topology/map.rs`. -/
inductive Tile where
  | SOLID (texture : TextureIndex)
  | DYNAMIC (texture_inside texture_outside : TextureIndex) (state_builder : ActionStateBuilder)
  | NOTHING

/-- `Map` from `src/domain/topology/map.rs`, restricted to the fields the
projection engine reads (`paving`, `border_texture`, `width`, `height`);
enemies, player spawn and weapon configuration are irrelevant collaborator
state. -/
structure Map where
  paving : List (List Tile)
  border_texture : TextureIndex
  width : ℤ
  height : ℤ

/-- `Map::paving_at`: bounds-checked tile lookup (`None` beyond the border). -/
def Map.paving_at (m : Map) (x y : ℤ) : Option Tile :=
  if x < 0 ∨ y < 0 ∨ m.width ≤ x ∨ m.height ≤ y then none
  else (m.paving.get? x.toNat).bind fun column => column.get? y.toNat

/-- `Actions` from `src/domain/control/actions.rs`: one state per map cell. -/
structure Actions where
  paving : List (List ActionState)
  width : ℤ
  height : ℤ

/-- `Actions::state_at`: bounds-checked read. -/
def Actions.state_at (a : Actions) (x y : ℤ) : Option ActionState :=
  if x < 0 ∨ y < 0 ∨ a.width ≤ x ∨ a.height ≤ y then none
  else (a.paving.get? x.toNat).bind fun column => column.get? y.toNat

/-- The structural facts about an `Actions` grid built by `Actions::new(map)`:
same dimensions as the map and a complete rectangular grid of states. -/
def Actions.Covers (m : Map) (a : Actions) : Prop :=
  a.width = m.width ∧ a.height = m.height ∧
    a.paving.length = a.width.toNat ∧ ∀ column ∈ a.paving, column.length = a.height.toNat

instance Actions.Covers.decidable (m : Map) (a : Actions) : Decidable (Actions.Covers m a) := by
  unfold Actions.Covers
  exact inferInstance

/-- `Projection` from `src/domain/topology/projection.rs` (the internal,
source-point-free record).  `blocking` is modelled as a proposition because
the source computes it from a real-number disequality. -/
structure Projection where
  projected_point : Position
  blocking : Prop
  offset_in_bloc : ℝ
  map_point : MapPoint
  texture : TextureIndex

/-- `Projection::new` (source argument order). -/
def Projection.new (projected_point : Position) (offset_in_bloc : ℝ) (blocking : Prop)
    (map_point : MapPoint) (texture : TextureIndex) : Projection :=
  ⟨projected_point, blocking, offset_in_bloc, map_point, texture⟩

/-- `ProjectedPoint` from `src/domain/topology/projection.rs`. -/
structure ProjectedPoint where
  source_point : Position
  projected_point : Position
  blocking : Prop
  offset_in_bloc : ℝ
  map_point : MapPoint
  texture : TextureIndex

/-- `ProjectedPoint::new`. -/
def ProjectedPoint.new (source_point : Position) (projection : Projection) : ProjectedPoint :=
  ⟨source_point, projection.projected_point, projection.blocking, projection.offset_in_bloc,
    projection.map_point, projection.texture⟩

noncomputable def ProjectedPoint.distance (p : ProjectedPoint) : ℝ :=
  p.source_point.distance p.projected_point

/-- Rust's `f32::is_nan`; real numbers have no NaN. -/
def f32_is_nan (_ : ℝ) : Bool := false

/-- `ProjectedPoint::distance_no_fish_eye`. -/
noncomputable def ProjectedPoint.distance_no_fish_eye (p : ProjectedPoint)
    (angle_reference : Angle) : ℝ :=
  let hypothenuse := p.distance
  let straight_vector := Vector.new ⟨0, 0⟩ ⟨angle_reference.cos, angle_reference.sin⟩
  let projection_vector := Vector.new p.source_point p.projected_point
  let angle := projection_vector.angle straight_vector
  let factor :=
    (((angle.map fun a => a.cos).map fun c => |c|).filter fun n => !f32_is_nan n).getD 1
  hypothenuse * factor

/-- `position_on_texture_inside_tile` from `src/domain/topology/projection.rs`. -/
noncomputable def position_on_texture_inside_tile (door : Openable)
    (door_position current_position opening_percentage : ℝ) : Option ℝ :=
  let right := (⌈current_position⌉ : ℝ)
  let left := (⌊current_position⌋ : ℝ)
  if door_position > right ∨ door_position < left then none
  else door.door_column opening_percentage (decimal_part door_position)

/-- `inner_door_projection` from `src/domain/topology/projection.rs`: the
ray's intersection with the door plane inset `0.5` units inside the tile. -/
noncomputable def inner_door_projection (current_position : Position) (angle : Angle)
    (door_up : Bool) (map_point : MapPoint) (texture : TextureIndex)
    (action_state : ActionState) : Option Projection :=
  let opening_percentage := action_state.activated_percentage
  let position_inside_tile : ℝ := 0.5
  let openable := action_state.openable
  if door_up then
    let a := (angle.add ANGLE_240).tan
    let angle_sign := signum angle.sin
    let door_x := current_position.x - a / (2 * angle_sign)
    let new_position :=
      (current_position.with_x door_x).with_y
        (current_position.y + position_inside_tile * angle_sign)
    (position_on_texture_inside_tile openable door_x current_position.x
        opening_percentage).map
      fun position_on_texture => Projection.new new_position position_on_texture True
        map_point texture
  else
    let a := angle.tan
    let angle_sign := signum angle.cos
    let door_y := current_position.y + a / (2 * angle_sign)
    let new_position :=
      (current_position.with_x (current_position.x + position_inside_tile * angle_sign)).with_y
        door_y
    (position_on_texture_inside_tile openable door_y current_position.y
        opening_percentage).map
      fun position_on_texture => Projection.new new_position position_on_texture True
        map_point texture

/-- `projection_on_door` from `src/domain/topology/projection.rs`.  The
recursive fall-through call to `inner_projection` is abstracted as `recurse`
(instantiated with the fueled walk).  The source unwraps
`actions.state_at(..)`; a panic on a missing state is modelled as `none`. -/
noncomputable def projection_on_door (recurse : Position → Option (List Projection))
    (angle : Angle) (map : Map) (actions : Actions) (next_position : Position)
    (position_on_texture : ℝ) (door_up : Bool) (map_point : MapPoint)
    (texture blocking_texture : TextureIndex) : Option (List Projection) :=
  match actions.state_at map_point.x map_point.y with
  | none => none
  | some action_state =>
      let blocking : Prop := action_state.activated_percentage ≠ 1
      let invisible_wall :=
        [Projection.new next_position position_on_texture blocking map_point blocking_texture]
      let actual_door :=
        match inner_door_projection next_position angle door_up map_point texture action_state with
        | none => recurse next_position
        | some d => some [d]
      actual_door.map fun rest => invisible_wall ++ rest

/-- The crossing-selection block at the top of `projection_concat`: the two
candidate crossings, the distance comparison, and the derived tile, texture
offset and orientation flag.  Returns
`(bloc, position_on_texture, door_up, next_position)`. -/
noncomputable def next_step (position : Position) (angle : Angle) :
    MapPoint × ℝ × Bool × Position :=
  let direction_x := signum angle.cos
  let direction_y := signum angle.sin
  let next_x_position := position.projection_x angle
  match position.projection_y angle with
  | none =>
      (next_x_position.to_map_point direction_x 0, decimal_part next_x_position.y, false,
        next_x_position)
  | some next_y_position =>
      if position.distance next_x_position < position.distance next_y_position then
        (next_x_position.to_map_point direction_x 0, decimal_part next_x_position.y, false,
          next_x_position)
      else
        (next_y_position.to_map_point 0 direction_y, decimal_part next_y_position.x, true,
          next_y_position)

/-- One layer of `projection_concat`'s `match` on the tile beyond the chosen
crossing; `recurse` is the next level of `inner_projection`. -/
noncomputable def projection_step (recurse : Position → Option (List Projection))
    (position : Position) (angle : Angle) (map : Map) (actions : Actions) :
    Option (List Projection) :=
  match next_step position angle with
  | (bloc, position_on_texture, door_up, next_position) =>
    match map.paving_at bloc.x bloc.y with
    | none =>
        some [Projection.new next_position position_on_texture True bloc map.border_texture]
    | some (Tile.SOLID texture) =>
        some [Projection.new next_position position_on_texture True bloc texture]
    | some (Tile.DYNAMIC texture_inside texture_outside _) =>
        match projection_on_door recurse angle map actions next_position position_on_texture
            door_up bloc texture_inside texture_outside, recurse next_position with
        | some projection_inside, some projection_behind =>
            some (projection_inside ++ projection_behind)
        | _, _ => none
    | some Tile.NOTHING => recurse next_position

/-- `projection_concat` from `src/domain/topology/projection.rs`, with an
explicit recursion fuel; `none` models non-termination within the given fuel
(or the source's `unwrap` panic on a missing action state). -/
noncomputable def projection_concat : ℕ → Position → Angle → Map → Actions →
    List Projection → Option (List Projection)
  | 0, _, _, _, _, _ => none
  | Nat.succ fuel, position, angle, map, actions, previous =>
      (projection_step (fun q => projection_concat fuel q angle map actions []) position angle
          map actions).map
        fun recursive => previous ++ recursive

/-- `inner_projection`. -/
noncomputable def inner_projection (fuel : ℕ) (position : Position) (angle : Angle)
    (map : Map) (actions : Actions) : Option (List Projection) :=
  projection_concat fuel position angle map actions []

/-- `project` from `src/domain/topology/projection.rs`. -/
noncomputable def project (fuel : ℕ) (position : Position) (angle : Angle) (map : Map)
    (actions : Actions) : Option (List ProjectedPoint) :=
  (inner_projection fuel position angle map actions).map
    fun projections => projections.map fun projection => ProjectedPoint.new position projection

/-- `LateralDoor` from `src/domain/topology/door.rs`. -/
structure LateralDoor where
  opening_percentage : ℝ

def LateralDoor.new (opening_percentage : ℝ) : LateralDoor := ⟨opening_percentage⟩

/-- `LateralDoor::door_column` from `src/domain/topology/door.rs`. -/
noncomputable def LateralDoor.door_column (self : LateralDoor) (offset : ℝ) : Option ℝ :=
  if offset > 1 - self.opening_percentage ∨ offset < 0 then none
  else some (offset + self.opening_percentage)

/-- `CentralDoor` from `src/domain/topology/door.rs`. -/
structure CentralDoor where
  opening_percentage : ℝ

def CentralDoor.new (opening_percentage : ℝ) : CentralDoor := ⟨opening_percentage⟩

/-- `CentralDoor::door_column` from `src/domain/topology/door.rs`. -/
noncomputable def CentralDoor.door_column (self : CentralDoor) (offset : ℝ) : Option ℝ :=
  let closing_percentage := 1 - self.opening_percentage
  let new_right := 1 - closing_percentage / 2
  let new_left := 0 + closing_percentage / 2
  if offset > new_left ∧ offset < new_right then none
  else if offset ≤ new_left then some (offset + self.opening_percentage / 2)
  else some (offset - self.opening_percentage / 2)

/-! ### Basic lemmas about `signum`, `round` and the step geometry -/

theorem signum_eq_one_or (x : ℝ) : signum x = 1 ∨ signum x = -1 := by
  unfold signum; split <;> simp

theorem signum_mul_self (x : ℝ) : signum x * signum x = 1 := by
  rcases signum_eq_one_or x with h | h <;> rw [h] <;> norm_num

theorem signum_mul_eq_abs (x : ℝ) : signum x * x = |x| := by
  unfold signum
  split
  · rw [abs_of_neg (by assumption)]; ring
  · rw [abs_of_nonneg (le_of_not_lt (by assumption))]; ring

theorem abs_signum (x : ℝ) : |signum x| = 1 := by
  rcases signum_eq_one_or x with h | h <;> rw [h] <;> norm_num

theorem signum_ne_zero (x : ℝ) : signum x ≠ 0 := by
  rcases signum_eq_one_or x with h | h <;> rw [h] <;> norm_num

/-- `abs` of a value whose product with a `signum` is nonnegative. -/
theorem abs_eq_signum_mul {s z : ℝ} (hs : s = 1 ∨ s = -1) (h : 0 ≤ s * z) : |z| = s * z := by
  rcases hs with h1 | h1 <;> subst h1
  · rw [one_mul] at h ⊢; exact abs_of_nonneg h
  · have : z ≤ 0 := by nlinarith
    rw [abs_of_nonpos this]; ring

theorem round_one (x : ℝ) : Position.round x 1 = ((⌊x⌋ + 1 : ℤ) : ℝ) := by
  unfold Position.round
  rw [if_pos (by norm_num : (1:ℝ) > 0)]
  show (if ((⌈x⌉ : ℝ)) = x then x + 1 else ((⌈x⌉ : ℝ))) = ((⌊x⌋ + 1 : ℤ) : ℝ)
  split
  · rename_i h
    rw [← h]
    push_cast [Int.floor_intCast]
    ring
  · rename_i h
    have h1 : ⌈x⌉ ≤ ⌊x⌋ + 1 := Int.ceil_le.mpr (by exact_mod_cast (Int.lt_floor_add_one x).le)
    have h2 : ⌊x⌋ < ⌈x⌉ := by
      by_contra hc
      push_neg at hc
      have hx1 : (⌈x⌉ : ℝ) ≤ x := le_trans (by exact_mod_cast hc) (Int.floor_le x)
      exact h (le_antisymm hx1 (Int.le_ceil x))
    have : ⌈x⌉ = ⌊x⌋ + 1 := le_antisymm h1 h2
    rw [this]

theorem round_neg_one (x : ℝ) : Position.round x (-1) = ((⌈x⌉ - 1 : ℤ) : ℝ) := by
  unfold Position.round
  rw [if_neg (by norm_num : ¬ ((-1:ℝ) > 0))]
  show (if ((⌊x⌋ : ℝ)) = x then x + -1 else ((⌊x⌋ : ℝ))) = ((⌈x⌉ - 1 : ℤ) : ℝ)
  split
  · rename_i h
    rw [← h]
    push_cast [Int.ceil_intCast]
    ring
  · rename_i h
    have h1 : ⌈x⌉ ≤ ⌊x⌋ + 1 := Int.ceil_le.mpr (by exact_mod_cast (Int.lt_floor_add_one x).le)
    have h2 : ⌊x⌋ < ⌈x⌉ := by
      by_contra hc
      push_neg at hc
      have hx1 : x ≤ (⌊x⌋ : ℝ) := le_trans (Int.le_ceil x) (by exact_mod_cast hc)
      exact h (le_antisymm (Int.floor_le x) hx1)
    have : ⌊x⌋ = ⌈x⌉ - 1 := by omega
    rw [this]

/-- The preorder "at or beyond, in the ray's signed direction, in both
coordinates".  Both grid crossings, door-plane points and all recursively
produced points advance along this order. -/
def DirLE (angle : Angle) (p q : Position) : Prop :=
  0 ≤ signum angle.cos * (q.x - p.x) ∧ 0 ≤ signum angle.sin * (q.y - p.y)

theorem DirLE.refl (angle : Angle) (p : Position) : DirLE angle p p := by
  constructor <;> simp

theorem DirLE.trans {angle : Angle} {p q r : Position} (h1 : DirLE angle p q)
    (h2 : DirLE angle q r) : DirLE angle p r := by
  obtain ⟨a1, b1⟩ := h1
  obtain ⟨a2, b2⟩ := h2
  constructor
  · have : signum angle.cos * (r.x - p.x) =
        signum angle.cos * (q.x - p.x) + signum angle.cos * (r.x - q.x) := by ring
    rw [this]; linarith
  · have : signum angle.sin * (r.y - p.y) =
        signum angle.sin * (q.y - p.y) + signum angle.sin * (r.y - q.y) := by ring
    rw [this]; linarith

theorem mono_tan_mul (θ : Angle) {t : ℝ} (h : 0 ≤ signum θ.cos * t) :
    0 ≤ signum θ.sin * (θ.tan * t) := by
  by_cases hc : Real.cos θ.radiant = 0
  · rw [show θ.tan = Real.tan θ.radiant from rfl, Real.tan_eq_sin_div_cos, hc, div_zero]
    simp
  · have hs1 : signum θ.cos * signum θ.cos = 1 := signum_mul_self _
    have e : (signum θ.cos * Real.cos θ.radiant) * (signum θ.cos * t) =
        Real.cos θ.radiant * t := by
      linear_combination (Real.cos θ.radiant * t) * hs1
    have key : signum θ.sin * (θ.tan * t) =
        (signum θ.sin * Real.sin θ.radiant) *
          ((signum θ.cos * Real.cos θ.radiant) * (signum θ.cos * t)) /
          (Real.cos θ.radiant ^ 2) := by
      rw [show θ.tan = Real.tan θ.radiant from rfl, Real.tan_eq_sin_div_cos, e]
      field_simp
      ring
    rw [key]
    apply div_nonneg _ (sq_nonneg _)
    apply mul_nonneg
    · rw [show signum θ.sin * Real.sin θ.radiant = signum θ.sin * θ.sin from rfl,
        signum_mul_eq_abs]
      exact abs_nonneg _
    · apply mul_nonneg _ h
      rw [show signum θ.cos * Real.cos θ.radiant = signum θ.cos * θ.cos from rfl,
        signum_mul_eq_abs]
      exact abs_nonneg _

theorem tan_ne_zero_cos_sin {θ : Angle} (h : θ.tan ≠ 0) :
    Real.cos θ.radiant ≠ 0 ∧ Real.sin θ.radiant ≠ 0 := by
  constructor
  · intro hc
    exact h (by rw [show θ.tan = Real.tan θ.radiant from rfl, Real.tan_eq_sin_div_cos, hc,
      div_zero])
  · intro hs
    exact h (by rw [show θ.tan = Real.tan θ.radiant from rfl, Real.tan_eq_sin_div_cos, hs,
      zero_div])

theorem mono_div_tan (θ : Angle) {t : ℝ} (h : θ.tan ≠ 0) (ht : 0 ≤ signum θ.sin * t) :
    0 ≤ signum θ.cos * (t / θ.tan) := by
  obtain ⟨hc, hs⟩ := tan_ne_zero_cos_sin h
  have hs2 : signum θ.sin * signum θ.sin = 1 := signum_mul_self _
  have e : (signum θ.sin * Real.sin θ.radiant) * (signum θ.sin * t) =
      Real.sin θ.radiant * t := by
    linear_combination (Real.sin θ.radiant * t) * hs2
  have key : signum θ.cos * (t / θ.tan) =
      (signum θ.cos * Real.cos θ.radiant) *
        ((signum θ.sin * Real.sin θ.radiant) * (signum θ.sin * t)) /
        (Real.sin θ.radiant ^ 2) := by
    rw [show θ.tan = Real.tan θ.radiant from rfl, Real.tan_eq_sin_div_cos, e]
    field_simp
    ring
  rw [key]
  apply div_nonneg _ (sq_nonneg _)
  apply mul_nonneg
  · rw [show signum θ.cos * Real.cos θ.radiant = signum θ.cos * θ.cos from rfl,
      signum_mul_eq_abs]
    exact abs_nonneg _
  · apply mul_nonneg _ ht
    rw [show signum θ.sin * Real.sin θ.radiant = signum θ.sin * θ.sin from rfl,
      signum_mul_eq_abs]
    exact abs_nonneg _

/-- The vertical-line crossing: its abscissa is an integer, it advances
strictly past the current abscissa in the ray's `x` direction (by at most one
tile) and weakly in the `y` direction. -/
theorem projection_x_spec (p : Position) (θ : Angle) :
    0 < signum θ.cos * ((p.projection_x θ).x - p.x) ∧
      signum θ.cos * ((p.projection_x θ).x - p.x) ≤ 1 ∧
      0 ≤ signum θ.sin * ((p.projection_x θ).y - p.y) ∧
      (¬ θ.cos < 0 → (p.projection_x θ).x = ((⌊p.x⌋ + 1 : ℤ) : ℝ)) ∧
      (θ.cos < 0 → (p.projection_x θ).x = ((⌈p.x⌉ - 1 : ℤ) : ℝ)) := by
  have hx : (p.projection_x θ).x = Position.round p.x (signum θ.cos) := rfl
  have hy : (p.projection_x θ).y = p.y + θ.tan * (Position.round p.x (signum θ.cos) - p.x) := rfl
  by_cases hc : θ.cos < 0
  · have hsg : signum θ.cos = -1 := if_pos hc
    have hr : Position.round p.x (signum θ.cos) = ((⌈p.x⌉ - 1 : ℤ) : ℝ) := by
      rw [hsg]; exact round_neg_one p.x
    have h1 : 0 < signum θ.cos * ((p.projection_x θ).x - p.x) := by
      rw [hx, hr, hsg]
      have := Int.ceil_lt_add_one p.x
      push_cast
      push_cast at this
      nlinarith
    have h2 : signum θ.cos * ((p.projection_x θ).x - p.x) ≤ 1 := by
      rw [hx, hr, hsg]
      have := Int.le_ceil p.x
      push_cast
      nlinarith
    refine ⟨h1, h2, ?_, fun hcon => absurd hc hcon, fun _ => by rw [hx, hr]⟩
    rw [hy]
    have e2 : p.y + θ.tan * (Position.round p.x (signum θ.cos) - p.x) - p.y =
        θ.tan * (Position.round p.x (signum θ.cos) - p.x) := by ring
    rw [e2]
    apply mono_tan_mul θ
    have h1' := h1
    rw [hx] at h1'
    exact h1'.le
  · have hsg : signum θ.cos = 1 := if_neg hc
    have hr : Position.round p.x (signum θ.cos) = ((⌊p.x⌋ + 1 : ℤ) : ℝ) := by
      rw [hsg]; exact round_one p.x
    have h1 : 0 < signum θ.cos * ((p.projection_x θ).x - p.x) := by
      rw [hx, hr, hsg]
      have := Int.lt_floor_add_one p.x
      push_cast
      nlinarith
    have h2 : signum θ.cos * ((p.projection_x θ).x - p.x) ≤ 1 := by
      rw [hx, hr, hsg]
      have := Int.floor_le p.x
      push_cast
      nlinarith
    refine ⟨h1, h2, ?_, fun _ => by rw [hx, hr], fun hcon => absurd hcon hc⟩
    rw [hy]
    have e2 : p.y + θ.tan * (Position.round p.x (signum θ.cos) - p.x) - p.y =
        θ.tan * (Position.round p.x (signum θ.cos) - p.x) := by ring
    rw [e2]
    apply mono_tan_mul θ
    have h1' := h1
    rw [hx] at h1'
    exact h1'.le

/-- The horizontal-line crossing, when it exists (`tan ≠ 0`): its ordinate is
an integer, it advances strictly past the current ordinate in the ray's `y`
direction (by at most one tile) and weakly in the `x` direction. -/
theorem projection_y_spec {p q : Position} {θ : Angle} (h : p.projection_y θ = some q) :
    θ.tan ≠ 0 ∧
      0 < signum θ.sin * (q.y - p.y) ∧
      signum θ.sin * (q.y - p.y) ≤ 1 ∧
      0 ≤ signum θ.cos * (q.x - p.x) ∧
      (¬ θ.sin < 0 → q.y = ((⌊p.y⌋ + 1 : ℤ) : ℝ)) ∧
      (θ.sin < 0 → q.y = ((⌈p.y⌉ - 1 : ℤ) : ℝ)) := by
  unfold Position.projection_y at h
  by_cases htan : θ.tan = 0
  · rw [if_pos htan] at h; exact absurd h (by simp)
  · rw [if_neg htan] at h
    have hq : q = (p.with_x (p.x + (Position.round p.y (signum θ.sin) - p.y) / θ.tan)).with_y
        (Position.round p.y (signum θ.sin)) := by
      exact (Option.some_injective _ h).symm
    have hqy : q.y = Position.round p.y (signum θ.sin) := by rw [hq]; rfl
    have hqx : q.x = p.x + (Position.round p.y (signum θ.sin) - p.y) / θ.tan := by rw [hq]; rfl
    by_cases hs : θ.sin < 0
    · have hsg : signum θ.sin = -1 := if_pos hs
      have hr : Position.round p.y (signum θ.sin) = ((⌈p.y⌉ - 1 : ℤ) : ℝ) := by
        rw [hsg]; exact round_neg_one p.y
      have h1 : 0 < signum θ.sin * (q.y - p.y) := by
        rw [hqy, hr, hsg]
        have := Int.ceil_lt_add_one p.y
        push_cast
        push_cast at this
        nlinarith
      have h2 : signum θ.sin * (q.y - p.y) ≤ 1 := by
        rw [hqy, hr, hsg]
        have := Int.le_ceil p.y
        push_cast
        nlinarith
      refine ⟨htan, h1, h2, ?_, fun hcon => absurd hs hcon, fun _ => by rw [hqy, hr]⟩
      rw [hqx]
      have : p.x + (Position.round p.y (signum θ.sin) - p.y) / θ.tan - p.x =
          (q.y - p.y) / θ.tan := by rw [hqy]; ring
      rw [this]
      exact mono_div_tan θ htan h1.le
    · have hsg : signum θ.sin = 1 := if_neg hs
      have hr : Position.round p.y (signum θ.sin) = ((⌊p.y⌋ + 1 : ℤ) : ℝ) := by
        rw [hsg]; exact round_one p.y
      have h1 : 0 < signum θ.sin * (q.y - p.y) := by
        rw [hqy, hr, hsg]
        have := Int.lt_floor_add_one p.y
        push_cast
        nlinarith
      have h2 : signum θ.sin * (q.y - p.y) ≤ 1 := by
        rw [hqy, hr, hsg]
        have := Int.floor_le p.y
        push_cast
        nlinarith
      refine ⟨htan, h1, h2, ?_, fun _ => by rw [hqy, hr], fun hcon => absurd hcon hs⟩
      rw [hqx]
      have : p.x + (Position.round p.y (signum θ.sin) - p.y) / θ.tan - p.x =
          (q.y - p.y) / θ.tan := by rw [hqy]; ring
      rw [this]
      exact mono_div_tan θ htan h1.le

theorem next_step_cases (p : Position) (θ : Angle) :
    next_step p θ = ((p.projection_x θ).to_map_point (signum θ.cos) 0,
        decimal_part (p.projection_x θ).y, false, p.projection_x θ) ∨
      ∃ ny, p.projection_y θ = some ny ∧
        next_step p θ = (ny.to_map_point 0 (signum θ.sin), decimal_part ny.x, true, ny) := by
  unfold next_step
  rcases h : p.projection_y θ with _ | ny
  · left; rfl
  · by_cases hd : p.distance (p.projection_x θ) < p.distance ny
    · left; simp only [hd, if_true]
    · right; exact ⟨ny, rfl, by simp only [hd, if_false]⟩

/-- The chosen crossing lies at or beyond the current position. -/
theorem next_step_dirle (p : Position) (θ : Angle) : DirLE θ p (next_step p θ).2.2.2 := by
  rcases next_step_cases p θ with h | ⟨ny, hny, h⟩
  · rw [h]
    obtain ⟨h1, _, h3, _⟩ := projection_x_spec p θ
    exact ⟨h1.le, h3⟩
  · rw [h]
    obtain ⟨_, h1, _, h3, _⟩ := projection_y_spec hny
    exact ⟨h3, h1.le⟩

theorem paving_at_some_bounds {m : Map} {x y : ℤ} {t : Tile}
    (h : m.paving_at x y = some t) : 0 ≤ x ∧ x < m.width ∧ 0 ≤ y ∧ y < m.height := by
  unfold Map.paving_at at h
  split at h
  · exact absurd h (by simp)
  · rename_i hcond
    push_neg at hcond
    omega

/-- Termination measure of the walk: the number of grid lines remaining
between the position and the border the ray is walking toward, in each
coordinate. -/
noncomputable def walkMeasure (m : Map) (θ : Angle) (p : Position) : ℕ :=
  (if θ.cos < 0 then ⌈p.x⌉ else m.width - ⌊p.x⌋).toNat +
    (if θ.sin < 0 then ⌈p.y⌉ else m.height - ⌊p.y⌋).toNat

/-- Whenever the tile beyond the chosen crossing is still on the map (the
only situation in which the walk recurses), the measure strictly drops. -/
theorem next_step_measure_lt {m : Map} {θ : Angle} {p : Position} {t : Tile}
    (hb : m.paving_at (next_step p θ).1.x (next_step p θ).1.y = some t) :
    walkMeasure m θ (next_step p θ).2.2.2 < walkMeasure m θ p := by
  obtain ⟨hx0, hxw, hy0, hyh⟩ := paving_at_some_bounds hb
  rcases next_step_cases p θ with h | ⟨ny, hny, h⟩
  · -- vertical-line crossing
    set np := p.projection_x θ with hnp
    obtain ⟨_, _, hmon, hxpos, hxneg⟩ := projection_x_spec p θ
    rw [h] at hx0 hxw
    have hblocx : (np.to_map_point (signum θ.cos) 0).x =
        ⌊np.x⌋ - (if (0:ℝ) ≤ signum θ.cos then 0 else 1) := rfl
    have hblocy : (np.to_map_point (signum θ.cos) 0).y = ⌊np.y⌋ := by
      show ⌊np.y⌋ - (if (0:ℝ) ≤ (0:ℝ) then 0 else 1) = ⌊np.y⌋
      norm_num
    rw [hblocx] at hx0 hxw
    -- the second summand is monotone
    have hyle : (if θ.sin < 0 then ⌈np.y⌉ else m.height - ⌊np.y⌋).toNat ≤
        (if θ.sin < 0 then ⌈p.y⌉ else m.height - ⌊p.y⌋).toNat := by
      by_cases hs : θ.sin < 0
      · have hsg : signum θ.sin = -1 := if_pos hs
        rw [hsg] at hmon
        have : np.y ≤ p.y := by nlinarith
        have := Int.ceil_le_ceil this
        simp only [hs, if_true]
        omega
      · have hsg : signum θ.sin = 1 := if_neg hs
        rw [hsg] at hmon
        have : p.y ≤ np.y := by nlinarith
        have := Int.floor_le_floor this
        simp only [hs, if_false]
        omega
    rw [h, show ((np.to_map_point (signum θ.cos) 0, decimal_part np.y, false, np) :
        MapPoint × ℝ × Bool × Position).2.2.2 = np from rfl]
    unfold walkMeasure
    by_cases hc : θ.cos < 0
    · have hsg : signum θ.cos = -1 := if_pos hc
      have hnpx : np.x = ((⌈p.x⌉ - 1 : ℤ) : ℝ) := hxneg hc
      have hfl : ⌊np.x⌋ = ⌈p.x⌉ - 1 := by rw [hnpx, Int.floor_intCast]
      have hcl : ⌈np.x⌉ = ⌈p.x⌉ - 1 := by rw [hnpx, Int.ceil_intCast]
      rw [hsg] at hx0
      rw [if_neg (by norm_num : ¬ (0:ℝ) ≤ (-1:ℝ)), hfl] at hx0
      simp only [hc, if_true, hcl]
      omega
    · have hsg : signum θ.cos = 1 := if_neg hc
      have hnpx : np.x = ((⌊p.x⌋ + 1 : ℤ) : ℝ) := hxpos hc
      have hfl : ⌊np.x⌋ = ⌊p.x⌋ + 1 := by rw [hnpx, Int.floor_intCast]
      rw [hsg] at hxw
      rw [if_pos (by norm_num : (0:ℝ) ≤ (1:ℝ)), hfl] at hxw
      simp only [hc, if_false, hfl]
      omega
  · -- horizontal-line crossing
    obtain ⟨_, _, _, hmon, hypos, hyneg⟩ := projection_y_spec hny
    rw [h] at hx0 hxw hy0 hyh
    have hblocy : (ny.to_map_point 0 (signum θ.sin)).y =
        ⌊ny.y⌋ - (if (0:ℝ) ≤ signum θ.sin then 0 else 1) := rfl
    have hblocx : (ny.to_map_point 0 (signum θ.sin)).x = ⌊ny.x⌋ := by
      show ⌊ny.x⌋ - (if (0:ℝ) ≤ (0:ℝ) then 0 else 1) = ⌊ny.x⌋
      norm_num
    rw [hblocy] at hy0 hyh
    have hxle : (if θ.cos < 0 then ⌈ny.x⌉ else m.width - ⌊ny.x⌋).toNat ≤
        (if θ.cos < 0 then ⌈p.x⌉ else m.width - ⌊p.x⌋).toNat := by
      by_cases hc : θ.cos < 0
      · have hsg : signum θ.cos = -1 := if_pos hc
        rw [hsg] at hmon
        have : ny.x ≤ p.x := by nlinarith
        have := Int.ceil_le_ceil this
        simp only [hc, if_true]
        omega
      · have hsg : signum θ.cos = 1 := if_neg hc
        rw [hsg] at hmon
        have : p.x ≤ ny.x := by nlinarith
        have := Int.floor_le_floor this
        simp only [hc, if_false]
        omega
    rw [h, show ((ny.to_map_point 0 (signum θ.sin), decimal_part ny.x, true, ny) :
        MapPoint × ℝ × Bool × Position).2.2.2 = ny from rfl]
    unfold walkMeasure
    by_cases hs : θ.sin < 0
    · have hsg : signum θ.sin = -1 := if_pos hs
      have hnyy : ny.y = ((⌈p.y⌉ - 1 : ℤ) : ℝ) := hyneg hs
      have hfl : ⌊ny.y⌋ = ⌈p.y⌉ - 1 := by rw [hnyy, Int.floor_intCast]
      have hcl : ⌈ny.y⌉ = ⌈p.y⌉ - 1 := by rw [hnyy, Int.ceil_intCast]
      rw [hsg] at hy0
      rw [if_neg (by norm_num : ¬ (0:ℝ) ≤ (-1:ℝ)), hfl] at hy0
      simp only [hs, if_true, hcl]
      omega
    · have hsg : signum θ.sin = 1 := if_neg hs
      have hnyy : ny.y = ((⌊p.y⌋ + 1 : ℤ) : ℝ) := hypos hs
      have hfl : ⌊ny.y⌋ = ⌊p.y⌋ + 1 := by rw [hnyy, Int.floor_intCast]
      rw [hsg] at hyh
      rw [if_pos (by norm_num : (0:ℝ) ≤ (1:ℝ)), hfl] at hyh
      simp only [hs, if_false, hfl]
      omega

theorem covers_state_at {m : Map} {a : Actions} (hcov : Actions.Covers m a) {x y : ℤ}
    (hx0 : 0 ≤ x) (hxw : x < m.width) (hy0 : 0 ≤ y) (hyh : y < m.height) :
    ∃ st, a.state_at x y = some st := by
  obtain ⟨hw, hh, hlen, hcols⟩ := hcov
  unfold Actions.state_at
  rw [if_neg (by rw [hw, hh]; push_neg; omega)]
  have hxlt : x.toNat < a.paving.length := by rw [hlen, hw]; omega
  rw [List.get?_eq_get hxlt]
  have hmem : a.paving.get ⟨x.toNat, hxlt⟩ ∈ a.paving := a.paving.get_mem _ _
  have hylt : y.toNat < (a.paving.get ⟨x.toNat, hxlt⟩).length := by
    rw [hcols _ hmem, hh]; omega
  rw [Option.some_bind, List.get?_eq_get hylt]
  exact ⟨_, rfl⟩

theorem projection_on_door_some (recurse : Position → Option (List Projection)) (θ : Angle)
    (m : Map) (a : Actions) (np : Position) (tex : ℝ) (du : Bool) (bloc : MapPoint)
    (ti tout : TextureIndex) (st : ActionState)
    (hst : a.state_at bloc.x bloc.y = some st) (hR : ∃ lr, recurse np = some lr) :
    ∃ li, projection_on_door recurse θ m a np tex du bloc ti tout = some li := by
  rcases hdoor : inner_door_projection np θ du bloc ti st with _ | d
  · obtain ⟨lr, hlr⟩ := hR
    exact ⟨Projection.new np tex (st.activated_percentage ≠ 1) bloc tout :: lr,
      by simp only [projection_on_door, hst, hdoor, hlr, Option.map_some']; rfl⟩
  · exact ⟨[Projection.new np tex (st.activated_percentage ≠ 1) bloc tout, d],
      by simp only [projection_on_door, hst, hdoor, Option.map_some']; rfl⟩

/-- A fuel strictly greater than the walk measure never runs out. -/
theorem projection_concat_isSome {m : Map} {a : Actions} {θ : Angle}
    (hcov : Actions.Covers m a) :
    ∀ fuel (p : Position), walkMeasure m θ p < fuel →
      ∃ l, projection_concat fuel p θ m a [] = some l := by
  intro fuel
  induction fuel with
  | zero => intro p h; omega
  | succ f IH =>
      intro p hfuel
      rcases hs : next_step p θ with ⟨bloc, tex, du, np⟩
      have hnp : (next_step p θ).2.2.2 = np := by rw [hs]
      suffices hstep : ∃ l0,
          projection_step (fun q => projection_concat f q θ m a []) p θ m a = some l0 by
        obtain ⟨l0, hl0⟩ := hstep
        exact ⟨l0, by simp [projection_concat, hl0]⟩
      rcases hpav : m.paving_at bloc.x bloc.y with _ | t
      · exact ⟨[Projection.new np tex True bloc m.border_texture],
          by simp [projection_step, hs, hpav]⟩
      · have hb : m.paving_at (next_step p θ).1.x (next_step p θ).1.y = some t := by
          rw [hs]; exact hpav
        have hmeas : walkMeasure m θ np < f := by
          have := next_step_measure_lt hb
          rw [hnp] at this
          omega
        rcases t with texture | ⟨ti, tout, b⟩ | _
        · exact ⟨[Projection.new np tex True bloc texture],
            by simp [projection_step, hs, hpav]⟩
        · obtain ⟨hx0, hxw, hy0, hyh⟩ := paving_at_some_bounds hpav
          obtain ⟨st, hst⟩ := covers_state_at hcov hx0 hxw hy0 hyh
          obtain ⟨lr, hlr⟩ := IH np hmeas
          obtain ⟨li, hli⟩ := projection_on_door_some
            (fun q => projection_concat f q θ m a []) θ m a np tex du bloc ti tout st hst
            ⟨lr, hlr⟩
          exact ⟨li ++ lr, by simp [projection_step, hs, hpav, hli, hlr]⟩
        · obtain ⟨lr, hlr⟩ := IH np hmeas
          exact ⟨lr, by simp [projection_step, hs, hpav, hlr]⟩

theorem sin_add_three_pi_div_two (x : ℝ) :
    Real.sin (x + 3 * Real.pi / 2) = -Real.cos x := by
  have h : x + 3 * Real.pi / 2 = (x - Real.pi / 2) + 2 * Real.pi := by ring
  rw [h, Real.sin_add_two_pi, Real.sin_sub_pi_div_two]

theorem cos_add_three_pi_div_two (x : ℝ) :
    Real.cos (x + 3 * Real.pi / 2) = Real.sin x := by
  have h : x + 3 * Real.pi / 2 = (x - Real.pi / 2) + 2 * Real.pi := by ring
  rw [h, Real.cos_add_two_pi, Real.cos_sub_pi_div_two]

/-- `tan(θ + 3π/2) = -cos θ / sin θ` (with Mathlib's total division, the
equality also holds when `sin θ = 0`, both sides being `0`). -/
theorem tan_add_three_pi_div_two (x : ℝ) :
    Real.tan (x + 3 * Real.pi / 2) = -Real.cos x / Real.sin x := by
  rw [Real.tan_eq_sin_div_cos, sin_add_three_pi_div_two, cos_add_three_pi_div_two]

/-- The door-plane intersection point, when the door is struck, lies at or
beyond the cell-boundary crossing in the ray's direction. -/
theorem inner_door_dirle {c : Position} {θ : Angle} {du : Bool} {mp : MapPoint}
    {ti : TextureIndex} {st : ActionState} {d : Projection}
    (h : inner_door_projection c θ du mp ti st = some d) : DirLE θ c d.projected_point := by
  unfold inner_door_projection at h
  cases du with
  | true =>
      rw [if_pos rfl] at h
      rw [Option.map_eq_some'] at h
      obtain ⟨pot, _, hd⟩ := h
      have hpos : d.projected_point =
          (c.with_x (c.x - (θ.add ANGLE_240).tan / (2 * signum θ.sin))).with_y
            (c.y + 0.5 * signum θ.sin) := by rw [← hd]; rfl
      have hss : signum θ.sin * signum θ.sin = 1 := signum_mul_self _
      have htan : (θ.add ANGLE_240).tan = -Real.cos θ.radiant / Real.sin θ.radiant := by
        show Real.tan (θ.radiant + ANGLE_240.radiant) = _
        rw [show ANGLE_240.radiant = 3 * Real.pi / 2 from rfl]
        exact tan_add_three_pi_div_two θ.radiant
      constructor
      · rw [hpos]
        show 0 ≤ signum θ.cos *
          (c.x - (θ.add ANGLE_240).tan / (2 * signum θ.sin) - c.x)
        rw [htan]
        by_cases hsin0 : Real.sin θ.radiant = 0
        · rw [hsin0, div_zero, zero_div]
          simp
        · by_cases hneg : θ.sin < 0
          · have hsg : signum θ.sin = -1 := if_pos hneg
            have hslt : Real.sin θ.radiant < 0 := hneg
            have key : signum θ.cos *
                (c.x - -Real.cos θ.radiant / Real.sin θ.radiant / (2 * signum θ.sin) - c.x) =
                (signum θ.cos * Real.cos θ.radiant) / (2 * (-Real.sin θ.radiant)) := by
              rw [hsg]
              field_simp [hsin0]
              ring
            rw [key, show signum θ.cos * Real.cos θ.radiant = signum θ.cos * θ.cos from rfl,
              signum_mul_eq_abs]
            apply div_nonneg (abs_nonneg _)
            linarith
          · have hsg : signum θ.sin = 1 := if_neg hneg
            have hslt : 0 < Real.sin θ.radiant :=
              lt_of_le_of_ne (le_of_not_lt hneg) (Ne.symm hsin0)
            have key : signum θ.cos *
                (c.x - -Real.cos θ.radiant / Real.sin θ.radiant / (2 * signum θ.sin) - c.x) =
                (signum θ.cos * Real.cos θ.radiant) / (2 * Real.sin θ.radiant) := by
              rw [hsg]
              field_simp [hsin0]
              ring
            rw [key, show signum θ.cos * Real.cos θ.radiant = signum θ.cos * θ.cos from rfl,
              signum_mul_eq_abs]
            apply div_nonneg (abs_nonneg _)
            linarith
      · rw [hpos]
        show 0 ≤ signum θ.sin * (c.y + 0.5 * signum θ.sin - c.y)
        have : signum θ.sin * (c.y + 0.5 * signum θ.sin - c.y) = 0.5 := by
          linear_combination 0.5 * hss
        rw [this]
        norm_num
  | false =>
      rw [if_neg (by simp)] at h
      rw [Option.map_eq_some'] at h
      obtain ⟨pot, _, hd⟩ := h
      have hpos : d.projected_point =
          (c.with_x (c.x + 0.5 * signum θ.cos)).with_y
            (c.y + θ.tan / (2 * signum θ.cos)) := by rw [← hd]; rfl
      have hcc : signum θ.cos * signum θ.cos = 1 := signum_mul_self _
      have hcne : signum θ.cos ≠ 0 := signum_ne_zero _
      constructor
      · rw [hpos]
        show 0 ≤ signum θ.cos * (c.x + 0.5 * signum θ.cos - c.x)
        have : signum θ.cos * (c.x + 0.5 * signum θ.cos - c.x) = 0.5 := by
          linear_combination 0.5 * hcc
        rw [this]
        norm_num
      · rw [hpos]
        show 0 ≤ signum θ.sin * (c.y + θ.tan / (2 * signum θ.cos) - c.y)
        have h2 : (2 : ℝ) * signum θ.cos ≠ 0 := by
          intro hc
          rcases mul_eq_zero.mp hc with h' | h'
          · norm_num at h'
          · exact hcne h'
        have e0 : c.y + θ.tan / (2 * signum θ.cos) - c.y =
            θ.tan / (2 * signum θ.cos) := by ring
        have e : θ.tan / (2 * signum θ.cos) = θ.tan * (signum θ.cos / 2) := by
          rw [div_eq_iff h2]
          linear_combination (-θ.tan) * hcc
        rw [e0, e]
        have ht : 0 ≤ signum θ.cos * (signum θ.cos / 2) := by nlinarith [hcc]
        exact mono_tan_mul θ ht

/-- The crossing selected by `next_step`. -/
noncomputable def chosenNext (p : Position) (θ : Angle) : Position := (next_step p θ).2.2.2

theorem projection_on_door_inv {R : Position → Option (List Projection)} {θ : Angle}
    {m : Map} {a : Actions} {np : Position} {tex : ℝ} {du : Bool} {bloc : MapPoint}
    {ti tout : TextureIndex} {li : List Projection}
    (h : projection_on_door R θ m a np tex du bloc ti tout = some li) :
    ∃ st, a.state_at bloc.x bloc.y = some st ∧
      ((∃ d, inner_door_projection np θ du bloc ti st = some d ∧
          li = [Projection.new np tex (st.activated_percentage ≠ 1) bloc tout, d]) ∨
        (inner_door_projection np θ du bloc ti st = none ∧
          ∃ rest, R np = some rest ∧
            li = Projection.new np tex (st.activated_percentage ≠ 1) bloc tout :: rest)) := by
  unfold projection_on_door at h
  rcases hst : a.state_at bloc.x bloc.y with _ | st
  · rw [hst] at h
    exact absurd h (by simp)
  · rw [hst] at h
    simp only [Option.map_eq_some'] at h
    obtain ⟨rest, hrest, hli⟩ := h
    refine ⟨st, rfl, ?_⟩
    rcases hdoor : inner_door_projection np θ du bloc ti st with _ | d
    · rw [hdoor] at hrest
      exact Or.inr ⟨rfl, rest, hrest, by rw [← hli]; rfl⟩
    · rw [hdoor] at hrest
      obtain rfl : [d] = rest := Option.some_injective _ hrest
      exact Or.inl ⟨d, rfl, by rw [← hli]; rfl⟩

/-- Structural invariant of the recursive walk: the result is non-empty,
every produced point lies at or beyond the first chosen crossing, and the
first produced point lies at or before every produced point (all in the
ray-direction order). -/
theorem projection_concat_inv {m : Map} {a : Actions} {θ : Angle} :
    ∀ fuel (p : Position) (l : List Projection),
      projection_concat fuel p θ m a [] = some l →
      l ≠ [] ∧ (∀ q ∈ l, DirLE θ (chosenNext p θ) q.projected_point) ∧
        ∀ hd, l.head? = some hd → ∀ q ∈ l, DirLE θ hd.projected_point q.projected_point := by
  intro fuel
  induction fuel with
  | zero => intro p l h; exact absurd h (by simp [projection_concat])
  | succ f IH =>
      intro p l h
      simp only [projection_concat, Option.map_eq_some'] at h
      obtain ⟨l0, hstep, hl⟩ := h
      rw [List.nil_append] at hl
      subst hl
      rcases hs : next_step p θ with ⟨bloc, tex, du, np⟩
      have hchosen : chosenNext p θ = np := by unfold chosenNext; rw [hs]
      have hpnp : DirLE θ p np := by
        have := next_step_dirle p θ
        rw [hs] at this
        exact this
      simp only [projection_step, hs] at hstep
      rcases hpav : m.paving_at bloc.x bloc.y with _ | t
      · rw [hpav] at hstep
        obtain rfl : [Projection.new np tex True bloc m.border_texture] = l0 :=
          Option.some_injective _ hstep
        refine ⟨by simp, ?_, ?_⟩
        · intro q hq
          rw [List.mem_singleton] at hq
          subst hq
          rw [hchosen]
          exact DirLE.refl θ np
        · intro hd hhd q hq
          rw [List.mem_singleton] at hq
          subst hq
          simp only [List.head?_cons, Option.some_inj] at hhd
          subst hhd
          exact DirLE.refl θ _
      · rcases t with texture | ⟨ti, tout, b⟩ | _
        · rw [hpav] at hstep
          obtain rfl : [Projection.new np tex True bloc texture] = l0 :=
            Option.some_injective _ hstep
          refine ⟨by simp, ?_, ?_⟩
          · intro q hq
            rw [List.mem_singleton] at hq
            subst hq
            rw [hchosen]
            exact DirLE.refl θ np
          · intro hd hhd q hq
            rw [List.mem_singleton] at hq
            subst hq
            simp only [List.head?_cons, Option.some_inj] at hhd
            subst hhd
            exact DirLE.refl θ _
        · simp only [hpav] at hstep
          rcases hdoor' : projection_on_door (fun q => projection_concat f q θ m a []) θ m a np
              tex du bloc ti tout with _ | inside
          · simp only [hdoor'] at hstep
            exact absurd hstep (by simp)
          rcases hbe : projection_concat f np θ m a [] with _ | behind
          · simp only [hdoor', hbe] at hstep
            exact absurd hstep (by simp)
          simp only [hdoor', hbe, Option.some.injEq] at hstep
          obtain rfl : inside ++ behind = l0 := hstep
          obtain ⟨hneB, hdirB, _⟩ := IH np behind hbe
          have hnpq : ∀ q ∈ behind, DirLE θ np q.projected_point := by
            intro q hq
            exact DirLE.trans (next_step_dirle np θ) (hdirB q hq)
          obtain ⟨st, hst, hcases⟩ := projection_on_door_inv hdoor'
          have hinv_pp : (Projection.new np tex (st.activated_percentage ≠ 1) bloc
              tout).projected_point = np := rfl
          rcases hcases with ⟨d, hdoor, rfl⟩ | ⟨hdoor, rest, hrest, rfl⟩
          · -- door struck: inside = [invisible wall, door point]
            have hd : DirLE θ np d.projected_point := inner_door_dirle hdoor
            have hmem : ∀ q ∈ Projection.new np tex (st.activated_percentage ≠ 1) bloc tout ::
                d :: behind, DirLE θ np q.projected_point := by
              intro q hq
              rcases List.mem_cons.mp hq with rfl | hq
              · rw [hinv_pp]; exact DirLE.refl θ np
              rcases List.mem_cons.mp hq with rfl | hq
              · exact hd
              · exact hnpq q hq
            refine ⟨by simp, ?_, ?_⟩
            · intro q hq
              rw [hchosen]
              exact hmem q hq
            · intro hd' hhd q hq
              simp only [List.cons_append, List.head?_cons, Option.some_inj] at hhd
              subst hhd
              rw [hinv_pp]
              exact hmem q hq
          · -- door missed or open: inside = invisible wall :: (walk behind)
            obtain rfl : rest = behind := by
              rw [hrest] at hbe
              exact Option.some_injective _ hbe
            have hmem : ∀ q ∈ (Projection.new np tex (st.activated_percentage ≠ 1) bloc tout ::
                rest) ++ rest, DirLE θ np q.projected_point := by
              intro q hq
              rcases List.mem_append.mp hq with hq | hq
              · rcases List.mem_cons.mp hq with rfl | hq
                · rw [hinv_pp]; exact DirLE.refl θ np
                · exact hnpq q hq
              · exact hnpq q hq
            refine ⟨by simp, ?_, ?_⟩
            · intro q hq
              rw [hchosen]
              exact hmem q hq
            · intro hd' hhd q hq
              simp only [List.cons_append, List.head?_cons, Option.some_inj] at hhd
              subst hhd
              rw [hinv_pp]
              exact hmem q hq
        · rw [hpav] at hstep
          obtain ⟨hne, hdir, hhead⟩ := IH np l0 hstep
          refine ⟨hne, ?_, hhead⟩
          intro q hq
          rw [hchosen]
          exact DirLE.trans (next_step_dirle np θ) (hdir q hq)

/-- Distances from a base point are monotone along the ray-direction order. -/
theorem distance_le_of_dirle {θ : Angle} {o u v : Position} (h1 : DirLE θ o u)
    (h2 : DirLE θ u v) : o.distance u ≤ o.distance v := by
  have hxs := signum_eq_one_or θ.cos
  have hys := signum_eq_one_or θ.sin
  have hx2 : 0 ≤ signum θ.cos * (v.x - o.x) := by
    have e : signum θ.cos * (v.x - o.x) =
        signum θ.cos * (u.x - o.x) + signum θ.cos * (v.x - u.x) := by ring
    rw [e]
    linarith [h1.1, h2.1]
  have hy2 : 0 ≤ signum θ.sin * (v.y - o.y) := by
    have e : signum θ.sin * (v.y - o.y) =
        signum θ.sin * (u.y - o.y) + signum θ.sin * (v.y - u.y) := by ring
    rw [e]
    linarith [h1.2, h2.2]
  have habsx : |u.x - o.x| ≤ |v.x - o.x| := by
    rw [abs_eq_signum_mul hxs h1.1, abs_eq_signum_mul hxs hx2]
    nlinarith [h2.1]
  have habsy : |u.y - o.y| ≤ |v.y - o.y| := by
    rw [abs_eq_signum_mul hys h1.2, abs_eq_signum_mul hys hy2]
    nlinarith [h2.2]
  show Real.sqrt ((u.x - o.x) * (u.x - o.x) + (u.y - o.y) * (u.y - o.y)) ≤
    Real.sqrt ((v.x - o.x) * (v.x - o.x) + (v.y - o.y) * (v.y - o.y))
  apply Real.sqrt_le_sqrt
  have hxsq : (u.x - o.x) * (u.x - o.x) ≤ (v.x - o.x) * (v.x - o.x) := by
    rw [← abs_mul_abs_self (u.x - o.x), ← abs_mul_abs_self (v.x - o.x)]
    exact mul_self_le_mul_self (abs_nonneg _) habsx
  have hysq : (u.y - o.y) * (u.y - o.y) ≤ (v.y - o.y) * (v.y - o.y) := by
    rw [← abs_mul_abs_self (u.y - o.y), ← abs_mul_abs_self (v.y - o.y)]
    exact mul_self_le_mul_self (abs_nonneg _) habsy
  linarith

theorem ANGLE_RIGHT_cos : ANGLE_RIGHT.cos = 1 := by
  show Real.cos 0 = 1
  exact Real.cos_zero

theorem ANGLE_RIGHT_sin : ANGLE_RIGHT.sin = 0 := by
  show Real.sin 0 = 0
  exact Real.sin_zero

theorem ANGLE_RIGHT_tan : ANGLE_RIGHT.tan = 0 := by
  show Real.tan 0 = 0
  exact Real.tan_zero

/-! ### Claim theorems -/

/-- C1: for every origin position, angle, map, and actions snapshot (any
snapshot with the grid shape `Actions::new(map)` produces), the recursive
grid walk of `project` terminates — a fuel exceeding `walkMeasure` is never
exhausted, so the recursion depth is finite — and it returns a non-empty
list of points; moreover for an origin inside the map, `walkMeasure` is at
most `width + height`, so the walk ends within `O(width + height)` steps. -/
theorem C1_project_terminates (m : Map) (a : Actions) (θ : Angle) (p : Position)
    (hcov : Actions.Covers m a) :
    (∀ fuel, walkMeasure m θ p < fuel →
        ∃ l, project fuel p θ m a = some l ∧ l ≠ []) ∧
      (0 ≤ p.x → p.x ≤ (m.width : ℝ) → 0 ≤ p.y → p.y ≤ (m.height : ℝ) →
        walkMeasure m θ p ≤ m.width.toNat + m.height.toNat) := by
  constructor
  · intro fuel hf
    obtain ⟨l0, hl0⟩ := projection_concat_isSome hcov fuel p hf
    have hne := (projection_concat_inv fuel p l0 hl0).1
    refine ⟨l0.map fun projection => ProjectedPoint.new p projection, ?_, ?_⟩
    · simp [project, inner_projection, hl0]
    · simpa using hne
  · intro hx1 hx2 hy1 hy2
    unfold walkMeasure
    have hcx : (if θ.cos < 0 then ⌈p.x⌉ else m.width - ⌊p.x⌋).toNat ≤ m.width.toNat := by
      split
      · have : ⌈p.x⌉ ≤ m.width := Int.ceil_le.mpr (by exact_mod_cast hx2)
        omega
      · have : 0 ≤ ⌊p.x⌋ := Int.floor_nonneg.mpr hx1
        omega
    have hcy : (if θ.sin < 0 then ⌈p.y⌉ else m.height - ⌊p.y⌋).toNat ≤ m.height.toNat := by
      split
      · have : ⌈p.y⌉ ≤ m.height := Int.ceil_le.mpr (by exact_mod_cast hy2)
        omega
      · have : 0 ≤ ⌊p.y⌋ := Int.floor_nonneg.mpr hy1
        omega
    omega

/-- Witness map for the termination claim: a `1 × 1` all-`NOTHING` map. -/
def wmap1 : Map := ⟨[[Tile.NOTHING]], ⟨0⟩, 1, 1⟩

/-- Witness actions grid matching `wmap1`. -/
def wacts1 : Actions := ⟨[[ActionState.nothing]], 1, 1⟩

theorem C1_project_terminates_witness :
    Actions.Covers wmap1 wacts1 ∧
      ((∀ fuel, walkMeasure wmap1 ANGLE_RIGHT ⟨1/2, 1/2⟩ < fuel →
          ∃ l, project fuel ⟨1/2, 1/2⟩ ANGLE_RIGHT wmap1 wacts1 = some l ∧ l ≠ []) ∧
        (0 ≤ (⟨1/2, 1/2⟩ : Position).x → (⟨1/2, 1/2⟩ : Position).x ≤ (wmap1.width : ℝ) →
          0 ≤ (⟨1/2, 1/2⟩ : Position).y → (⟨1/2, 1/2⟩ : Position).y ≤ (wmap1.height : ℝ) →
          walkMeasure wmap1 ANGLE_RIGHT ⟨1/2, 1/2⟩ ≤
            wmap1.width.toNat + wmap1.height.toNat)) :=
  ⟨by decide, C1_project_terminates wmap1 wacts1 ANGLE_RIGHT ⟨1/2, 1/2⟩ (by decide)⟩

/-- C2 (amended): the first point of the list returned by `project` is a
nearest point — every point's `distance()` is at least the first point's.
(The full list is *not* sorted nearest-to-farthest; see the counterexample:
behind a missed or open door the walk is emitted twice, so a farther point
can precede a nearer duplicate.) -/
theorem C2_nearest_first (m : Map) (a : Actions) (θ : Angle) (p : Position) (fuel : ℕ)
    (hcov : Actions.Covers m a) (hf : walkMeasure m θ p < fuel) :
    ∃ l, project fuel p θ m a = some l ∧
      ∀ hd, l.head? = some hd → ∀ q ∈ l, hd.distance ≤ q.distance := by
  obtain ⟨l0, hl0⟩ := projection_concat_isSome hcov fuel p hf
  obtain ⟨hne, hdir, hhead⟩ := projection_concat_inv fuel p l0 hl0
  refine ⟨l0.map fun projection => ProjectedPoint.new p projection, ?_, ?_⟩
  · simp [project, inner_projection, hl0]
  · intro hd hhd q hq
    rw [List.head?_map] at hhd
    rw [Option.map_eq_some'] at hhd
    obtain ⟨hd0, hhd0, rfl⟩ := hhd
    rw [List.mem_map] at hq
    obtain ⟨q0, hq0, rfl⟩ := hq
    have hmem0 : hd0 ∈ l0 := List.mem_of_mem_head? hhd0
    show p.distance hd0.projected_point ≤ p.distance q0.projected_point
    apply distance_le_of_dirle (θ := θ)
    · exact DirLE.trans (next_step_dirle p θ) (hdir hd0 hmem0)
    · exact hhead hd0 hhd0 q0 hq0

theorem C2_nearest_first_witness :
    Actions.Covers wmap1 wacts1 ∧ walkMeasure wmap1 ANGLE_RIGHT ⟨1/2, 1/2⟩ < 3 ∧
      ∃ l, project 3 ⟨1/2, 1/2⟩ ANGLE_RIGHT wmap1 wacts1 = some l ∧
        ∀ hd, l.head? = some hd → ∀ q ∈ l, hd.distance ≤ q.distance := by
  have hμ : walkMeasure wmap1 ANGLE_RIGHT ⟨1/2, 1/2⟩ < 3 := by
    unfold walkMeasure
    rw [if_neg (by rw [ANGLE_RIGHT_cos]; norm_num), if_neg (by rw [ANGLE_RIGHT_sin]; norm_num)]
    have h1 : ⌊((⟨1/2, 1/2⟩ : Position)).x⌋ = 0 := by
      apply Int.floor_eq_iff.mpr <;> norm_num
    have h2 : ⌊((⟨1/2, 1/2⟩ : Position)).y⌋ = 0 := by
      apply Int.floor_eq_iff.mpr <;> norm_num
    simp only [h1, h2]
    decide
  exact ⟨by decide, hμ,
    C2_nearest_first wmap1 wacts1 ANGLE_RIGHT ⟨1/2, 1/2⟩ 3 (by decide) hμ⟩

/-! ### A concrete ray through two open doors (counterexample to C2) -/

/-- A fully-open lateral door state (reachable by `activate` then a long
`notify_elapsed`: the percentage clamps to exactly `1`). -/
noncomputable def wdoor : ActionState := .linear ⟨1⟩ true 1 .lateral

/-- Map row ` DD#` (x from 0 to 3, height 1): nothing, two dynamic doors,
then a solid wall. -/
noncomputable def wmap2 : Map :=
  ⟨[[Tile.NOTHING], [Tile.DYNAMIC ⟨1⟩ ⟨2⟩ ⟨wdoor⟩], [Tile.DYNAMIC ⟨1⟩ ⟨2⟩ ⟨wdoor⟩],
    [Tile.SOLID ⟨3⟩]], ⟨0⟩, 4, 1⟩

/-- The matching actions snapshot: both doors fully open. -/
noncomputable def wacts2 : Actions :=
  ⟨[[ActionState.nothing], [wdoor], [wdoor], [ActionState.nothing]], 4, 1⟩

theorem floor_half : ⌊(1/2 : ℝ)⌋ = 0 := Int.floor_eq_iff.mpr (by norm_num)

theorem ceil_half : ⌈(1/2 : ℝ)⌉ = 1 := Int.ceil_eq_iff.mpr (by norm_num)

theorem decimal_part_half : decimal_part (1/2) = 1/2 := by
  unfold decimal_part
  rw [abs_of_nonneg (by norm_num : (0:ℝ) ≤ 1/2), floor_half]
  norm_num

theorem signum_ANGLE_RIGHT_cos : signum ANGLE_RIGHT.cos = 1 := by
  rw [ANGLE_RIGHT_cos]
  exact if_neg (by norm_num)

theorem projection_x_right (p : Position) :
    p.projection_x ANGLE_RIGHT = ⟨((⌊p.x⌋ + 1 : ℤ) : ℝ), p.y⟩ := by
  unfold Position.projection_x
  ext
  · show Position.round p.x (signum ANGLE_RIGHT.cos) = _
    rw [signum_ANGLE_RIGHT_cos, round_one]
  · show p.y + ANGLE_RIGHT.tan * (Position.round p.x (signum ANGLE_RIGHT.cos) - p.x) = p.y
    rw [ANGLE_RIGHT_tan]
    ring

theorem projection_y_right (p : Position) : p.projection_y ANGLE_RIGHT = none := by
  unfold Position.projection_y
  rw [if_pos ANGLE_RIGHT_tan]

theorem next_step_right (p : Position) :
    next_step p ANGLE_RIGHT = (⟨⌊p.x⌋ + 1, ⌊p.y⌋⟩, decimal_part p.y, false,
      ⟨((⌊p.x⌋ + 1 : ℤ) : ℝ), p.y⟩) := by
  unfold next_step
  simp only [projection_y_right, projection_x_right]
  unfold Position.to_map_point
  simp only [signum_ANGLE_RIGHT_cos]
  norm_num [Int.floor_intCast]

theorem ns_a : next_step ⟨1/2, 1/2⟩ ANGLE_RIGHT =
    (⟨1, 0⟩, decimal_part (1/2), false, ⟨1, 1/2⟩) := by
  rw [next_step_right]
  norm_num [floor_half]

theorem ns_b : next_step ⟨1, 1/2⟩ ANGLE_RIGHT =
    (⟨2, 0⟩, decimal_part (1/2), false, ⟨2, 1/2⟩) := by
  rw [next_step_right]
  norm_num [floor_half]

theorem ns_c : next_step ⟨2, 1/2⟩ ANGLE_RIGHT =
    (⟨3, 0⟩, decimal_part (1/2), false, ⟨3, 1/2⟩) := by
  rw [next_step_right]
  norm_num [floor_half]

theorem pav_10 : wmap2.paving_at 1 0 = some (Tile.DYNAMIC ⟨1⟩ ⟨2⟩ ⟨wdoor⟩) := rfl

theorem pav_20 : wmap2.paving_at 2 0 = some (Tile.DYNAMIC ⟨1⟩ ⟨2⟩ ⟨wdoor⟩) := rfl

theorem pav_30 : wmap2.paving_at 3 0 = some (Tile.SOLID ⟨3⟩) := rfl

theorem st_10 : wacts2.state_at 1 0 = some wdoor := rfl

theorem st_20 : wacts2.state_at 2 0 = some wdoor := rfl

theorem inner_door_none (c : Position) (hc : c.y = 1/2) (mp : MapPoint) (t : TextureIndex) :
    inner_door_projection c ANGLE_RIGHT false mp t wdoor = none := by
  unfold inner_door_projection
  rw [if_neg (by simp : ¬ (false = true))]
  have hdy : c.y + ANGLE_RIGHT.tan / (2 * signum ANGLE_RIGHT.cos) = 1/2 := by
    rw [hc, ANGLE_RIGHT_tan, signum_ANGLE_RIGHT_cos]
    norm_num
  have hpot : position_on_texture_inside_tile Openable.lateral (1/2) (1/2) 1 = none := by
    unfold position_on_texture_inside_tile
    rw [if_neg (by rw [ceil_half, floor_half]; push_cast; norm_num)]
    rw [decimal_part_half]
    show (if (1/2 : ℝ) > 1 - 1 then none else some ((1/2 : ℝ) + 1)) = none
    rw [if_pos (by norm_num)]
  show (position_on_texture_inside_tile wdoor.openable
      (c.y + ANGLE_RIGHT.tan / (2 * signum ANGLE_RIGHT.cos)) c.y
      wdoor.activated_percentage).map _ = none
  rw [show wdoor.openable = Openable.lateral from rfl,
    show wdoor.activated_percentage = (1:ℝ) from rfl, hdy, hc, hpot]
  rfl

theorem pod_eval (R : Position → Option (List Projection)) (c : Position) (hc : c.y = 1/2)
    (tex : ℝ) (mp : MapPoint) (hst : wacts2.state_at mp.x mp.y = some wdoor)
    (t1 t2 : TextureIndex) :
    projection_on_door R ANGLE_RIGHT wmap2 wacts2 c tex false mp t1 t2 =
      (R c).map fun rest =>
        Projection.new c tex (wdoor.activated_percentage ≠ 1) mp t2 :: rest := by
  simp only [projection_on_door, hst, inner_door_none c hc mp t1]
  cases hr : R c with
  | none => rfl
  | some rest => rfl

theorem projection_concat_succ (fuel : ℕ) (p : Position) (θ : Angle) (m : Map) (a : Actions)
    (previous : List Projection) :
    projection_concat (fuel + 1) p θ m a previous =
      (projection_step (fun q => projection_concat fuel q θ m a []) p θ m a).map
        fun recursive => previous ++ recursive := rfl

/-- Terminal wall point of the counterexample walk. -/
noncomputable def wwall : Projection :=
  Projection.new ⟨3, 1/2⟩ (decimal_part (1/2)) True ⟨3, 0⟩ ⟨3⟩

/-- Invisible marker point of the first door. -/
noncomputable def winv1 : Projection :=
  Projection.new ⟨1, 1/2⟩ (decimal_part (1/2)) (wdoor.activated_percentage ≠ 1) ⟨1, 0⟩ ⟨2⟩

/-- Invisible marker point of the second door. -/
noncomputable def winv2 : Projection :=
  Projection.new ⟨2, 1/2⟩ (decimal_part (1/2)) (wdoor.activated_percentage ≠ 1) ⟨2, 0⟩ ⟨2⟩

theorem walk2_eval : projection_concat 2 ⟨2, 1/2⟩ ANGLE_RIGHT wmap2 wacts2 [] = some [wwall] := by
  rw [show (2:ℕ) = 1 + 1 from rfl, projection_concat_succ]
  simp only [projection_step, ns_c, pav_30]
  rfl

theorem walk1_eval : projection_concat 3 ⟨1, 1/2⟩ ANGLE_RIGHT wmap2 wacts2 [] =
    some [winv2, wwall, wwall] := by
  rw [show (3:ℕ) = 2 + 1 from rfl, projection_concat_succ]
  simp only [projection_step, ns_b, pav_20]
  rw [pod_eval _ ⟨2, 1/2⟩ rfl (decimal_part (1/2)) ⟨2, 0⟩ st_20 ⟨1⟩ ⟨2⟩]
  simp only [walk2_eval, Option.map_some']
  rfl

theorem walk0_eval : projection_concat 4 ⟨1/2, 1/2⟩ ANGLE_RIGHT wmap2 wacts2 [] =
    some [winv1, winv2, wwall, wwall, winv2, wwall, wwall] := by
  rw [show (4:ℕ) = 3 + 1 from rfl, projection_concat_succ]
  simp only [projection_step, ns_a, pav_10]
  rw [pod_eval _ ⟨1, 1/2⟩ rfl (decimal_part (1/2)) ⟨1, 0⟩ st_10 ⟨1⟩ ⟨2⟩]
  simp only [walk1_eval, Option.map_some']
  rfl

theorem project_eval : project 4 ⟨1/2, 1/2⟩ ANGLE_RIGHT wmap2 wacts2 =
    some ([winv1, winv2, wwall, wwall, winv2, wwall, wwall].map
      fun projection => ProjectedPoint.new ⟨1/2, 1/2⟩ projection) := by
  unfold project inner_projection
  rw [walk0_eval]
  rfl

theorem dist_from_center (q : Position) (hy : q.y = 1/2) (hx : 1/2 ≤ q.x) :
    Position.distance ⟨1/2, 1/2⟩ q = q.x - 1/2 := by
  show Real.sqrt ((q.x - 1/2) * (q.x - 1/2) + (q.y - 1/2) * (q.y - 1/2)) = q.x - 1/2
  rw [hy]
  rw [show (q.x - 1/2) * (q.x - 1/2) + ((1:ℝ)/2 - 1/2) * ((1:ℝ)/2 - 1/2) =
    (q.x - 1/2) * (q.x - 1/2) from by ring]
  exact Real.sqrt_mul_self (by linarith)

/-- C2 counterexample: for the map ` DD#` with both doors fully open and the
ray from `(0.5, 0.5)` pointing right, `project` returns the seven points
`[inv₁, inv₂, wall, wall, inv₂, wall, wall]` (the walk behind a non-struck
door is emitted twice), whose distances `[0.5, 1.5, 2.5, 2.5, 1.5, 2.5, 2.5]`
are not ordered nearest-to-farthest: the third point (distance `2.5`)
precedes the fifth (distance `1.5`). -/
theorem C2_counterexample :
    ¬ List.Pairwise (fun q r : ProjectedPoint => q.distance ≤ r.distance)
      ((project 4 ⟨1/2, 1/2⟩ ANGLE_RIGHT wmap2 wacts2).getD []) := by
  rw [project_eval]
  intro hpw
  simp only [List.map_cons, List.map_nil, Option.getD_some, List.pairwise_cons,
    List.mem_cons] at hpw
  have hbad : (ProjectedPoint.new ⟨1/2, 1/2⟩ wwall).distance ≤
      (ProjectedPoint.new ⟨1/2, 1/2⟩ winv2).distance := by
    refine hpw.2.2.1 (ProjectedPoint.new ⟨1/2, 1/2⟩ winv2) ?_
    tauto
  have hwd : (ProjectedPoint.new ⟨1/2, 1/2⟩ wwall).distance = 5/2 := by
    show Position.distance ⟨1/2, 1/2⟩ ⟨3, 1/2⟩ = 5/2
    rw [dist_from_center ⟨3, 1/2⟩ rfl (by norm_num)]
    norm_num
  have hid : (ProjectedPoint.new ⟨1/2, 1/2⟩ winv2).distance = 3/2 := by
    show Position.distance ⟨1/2, 1/2⟩ ⟨2, 1/2⟩ = 3/2
    rw [dist_from_center ⟨2, 1/2⟩ rfl (by norm_num)]
    norm_num
  rw [hwd, hid] at hbad
  norm_num at hbad

/-- C3: whenever a ray crosses into a `Dynamic` tile, the invisible marker
point emitted by `projection_on_door` is the first point of its result, and
its `blocking` flag holds exactly when the tile's action state has
`activated_percentage() ≠ 1.0` — any percentage short of exactly `1`
(such as `0.999`, see the witness) blocks, and exactly `1` does not. -/
theorem C3_door_marker_blocking (recurse : Position → Option (List Projection)) (θ : Angle)
    (m : Map) (a : Actions) (np : Position) (tex : ℝ) (du : Bool) (mp : MapPoint)
    (ti tout : TextureIndex) (st : ActionState) (l : List Projection)
    (hst : a.state_at mp.x mp.y = some st)
    (h : projection_on_door recurse θ m a np tex du mp ti tout = some l) :
    l.head? = some (Projection.new np tex (st.activated_percentage ≠ 1) mp tout) ∧
      ((Projection.new np tex (st.activated_percentage ≠ 1) mp tout).blocking ↔
        st.activated_percentage ≠ 1) := by
  obtain ⟨st', hst', hcases⟩ := projection_on_door_inv h
  obtain rfl : st' = st := by
    rw [hst] at hst'
    exact (Option.some_injective _ hst').symm
  refine ⟨?_, Iff.rfl⟩
  rcases hcases with ⟨d, _, rfl⟩ | ⟨_, rest, _, rfl⟩
  · rfl
  · rfl

/-- A nearly open (`99.9%`) lateral door state. -/
noncomputable def st999 : ActionState := .linear ⟨1⟩ true (999/1000) .lateral

/-- A `1 × 1` actions grid holding `st999`. -/
noncomputable def wacts3 : Actions := ⟨[[st999]], 1, 1⟩

theorem floor_half_thousandth : ⌊(1/2000 : ℝ)⌋ = 0 := Int.floor_eq_iff.mpr (by norm_num)

theorem ceil_half_thousandth : ⌈(1/2000 : ℝ)⌉ = 1 := Int.ceil_eq_iff.mpr (by norm_num)

theorem decimal_part_half_thousandth : decimal_part (1/2000) = 1/2000 := by
  unfold decimal_part
  rw [abs_of_nonneg (by norm_num : (0:ℝ) ≤ 1/2000), floor_half_thousandth]
  norm_num

theorem inner_door_999 :
    inner_door_projection ⟨1, 1/2000⟩ ANGLE_RIGHT false ⟨0, 0⟩ ⟨1⟩ st999 =
      some (Projection.new ⟨3/2, 1/2000⟩ (1999/2000) True ⟨0, 0⟩ ⟨1⟩) := by
  unfold inner_door_projection
  rw [if_neg (by simp : ¬ (false = true))]
  have hpot : position_on_texture_inside_tile Openable.lateral (1/2000) (1/2000) (999/1000) =
      some (1999/2000) := by
    unfold position_on_texture_inside_tile
    rw [if_neg (by rw [ceil_half_thousandth, floor_half_thousandth]; push_cast; norm_num)]
    rw [decimal_part_half_thousandth]
    show (if (1/2000 : ℝ) > 1 - 999/1000 then none
      else some ((1/2000 : ℝ) + 999/1000)) = some (1999/2000)
    rw [if_neg (by norm_num)]
    norm_num
  have hcy : (⟨1, 1/2000⟩ : Position).y = 1/2000 := rfl
  have hdy : (⟨1, 1/2000⟩ : Position).y + ANGLE_RIGHT.tan / (2 * signum ANGLE_RIGHT.cos) =
      1/2000 := by
    rw [hcy, ANGLE_RIGHT_tan, signum_ANGLE_RIGHT_cos]
    norm_num
  show (position_on_texture_inside_tile st999.openable
      ((⟨1, 1/2000⟩ : Position).y + ANGLE_RIGHT.tan / (2 * signum ANGLE_RIGHT.cos))
      (⟨1, 1/2000⟩ : Position).y st999.activated_percentage).map _ = _
  rw [show st999.openable = Openable.lateral from rfl,
    show st999.activated_percentage = (999/1000 : ℝ) from rfl, hdy, hcy, hpot]
  rw [Option.map_some']
  congr 1
  unfold Projection.new
  congr 1
  · show ((⟨1, 1/2000⟩ : Position).with_x
        ((⟨1, 1/2000⟩ : Position).x + 0.5 * signum ANGLE_RIGHT.cos)).with_y (1/2000) =
      (⟨3/2, 1/2000⟩ : Position)
    ext
    · show (⟨1, 1/2000⟩ : Position).x + 0.5 * signum ANGLE_RIGHT.cos = 3/2
      rw [signum_ANGLE_RIGHT_cos]
      show (1 : ℝ) + 0.5 * 1 = 3/2
      norm_num
    · rfl

theorem st3_lookup : wacts3.state_at 0 0 = some st999 := rfl

theorem pod_999 : projection_on_door (fun _ => none) ANGLE_RIGHT wmap1 wacts3 ⟨1, 1/2000⟩
    0 false ⟨0, 0⟩ ⟨1⟩ ⟨2⟩ =
    some [Projection.new ⟨1, 1/2000⟩ 0 (st999.activated_percentage ≠ 1) ⟨0, 0⟩ ⟨2⟩,
      Projection.new ⟨3/2, 1/2000⟩ (1999/2000) True ⟨0, 0⟩ ⟨1⟩] := by
  simp only [projection_on_door, st3_lookup, inner_door_999, Option.map_some']
  rfl

theorem C3_door_marker_blocking_witness :
    wacts3.state_at 0 0 = some st999 ∧
      projection_on_door (fun _ => none) ANGLE_RIGHT wmap1 wacts3 ⟨1, 1/2000⟩ 0 false
          ⟨0, 0⟩ ⟨1⟩ ⟨2⟩ =
        some [Projection.new ⟨1, 1/2000⟩ 0 (st999.activated_percentage ≠ 1) ⟨0, 0⟩ ⟨2⟩,
          Projection.new ⟨3/2, 1/2000⟩ (1999/2000) True ⟨0, 0⟩ ⟨1⟩] ∧
      ([Projection.new ⟨1, 1/2000⟩ 0 (st999.activated_percentage ≠ 1) ⟨0, 0⟩ ⟨2⟩,
          Projection.new ⟨3/2, 1/2000⟩ (1999/2000) True ⟨0, 0⟩ ⟨1⟩] :
            List Projection).head? =
          some (Projection.new ⟨1, 1/2000⟩ 0 (st999.activated_percentage ≠ 1) ⟨0, 0⟩ ⟨2⟩) ∧
        ((Projection.new ⟨1, 1/2000⟩ 0 (st999.activated_percentage ≠ 1) ⟨0, 0⟩
            ⟨2⟩).blocking ↔ st999.activated_percentage ≠ 1) :=
  ⟨st3_lookup, pod_999,
    C3_door_marker_blocking (fun _ => none) ANGLE_RIGHT wmap1 wacts3 ⟨1, 1/2000⟩ 0 false
      ⟨0, 0⟩ ⟨1⟩ ⟨2⟩ st999 _ st3_lookup pod_999⟩

/-- C4 counterexample: at `opening_percentage = 1.0` and offset `0` — an
offset inside `[0,1)` — neither shape returns `None`: the lateral door
returns `Some(1.0)` and the central door `Some(0.5)` (both comparisons
against the retracted region are strict, so the left edge survives). -/
theorem C4_counterexample :
    (LateralDoor.new 1).door_column 0 = some 1 ∧
      (CentralDoor.new 1).door_column 0 = some (1/2) ∧
      (0 ≤ (0:ℝ) ∧ (0:ℝ) < 1) := by
  refine ⟨?_, ?_, by norm_num⟩
  · unfold LateralDoor.door_column LateralDoor.new
    rw [if_neg (by norm_num)]
    norm_num
  · unfold CentralDoor.door_column CentralDoor.new
    show (if (0:ℝ) > 0 + (1 - 1)/2 ∧ (0:ℝ) < 1 - (1 - 1)/2 then none
      else if (0:ℝ) ≤ 0 + (1 - 1)/2 then some ((0:ℝ) + 1/2) else some ((0:ℝ) - 1/2)) =
      some (1/2)
    rw [if_neg (by norm_num), if_pos (by norm_num)]
    norm_num

/-- C4 (amended): at `opening_percentage = 1.0` both shapes return `None`
for every offset in the *open* interval `(0,1)`; at offset exactly `0` they
return `Some` (see the counterexample). -/
theorem C4_open_door_invisible (offset : ℝ) (h1 : 0 < offset) (h2 : offset < 1) :
    (LateralDoor.new 1).door_column offset = none ∧
      (CentralDoor.new 1).door_column offset = none := by
  constructor
  · unfold LateralDoor.door_column LateralDoor.new
    rw [if_pos (Or.inl (by show offset > 1 - 1; linarith))]
  · unfold CentralDoor.door_column CentralDoor.new
    show (if offset > 0 + (1 - 1)/2 ∧ offset < 1 - (1 - 1)/2 then none
      else if offset ≤ 0 + (1 - 1)/2 then some (offset + 1/2) else some (offset - 1/2)) =
      none
    rw [if_pos (by constructor <;> [linarith; linarith])]

theorem C4_open_door_invisible_witness :
    (0 < (1/2 : ℝ) ∧ (1/2 : ℝ) < 1) ∧
      ((LateralDoor.new 1).door_column (1/2) = none ∧
        (CentralDoor.new 1).door_column (1/2) = none) :=
  ⟨by norm_num, C4_open_door_invisible (1/2) (by norm_num) (by norm_num)⟩

/-- C5: at `opening_percentage = 0.0` both shapes are the identity mapping
from strike offset to texture offset on `[0,1)`. -/
theorem C5_closed_door_identity (offset : ℝ) (h1 : 0 ≤ offset) (h2 : offset < 1) :
    (LateralDoor.new 0).door_column offset = some offset ∧
      (CentralDoor.new 0).door_column offset = some offset := by
  constructor
  · unfold LateralDoor.door_column LateralDoor.new
    rw [if_neg (by push_neg; exact ⟨by show offset ≤ 1 - 0; linarith, h1⟩)]
    norm_num
  · unfold CentralDoor.door_column CentralDoor.new
    show (if offset > 0 + (1 - 0)/2 ∧ offset < 1 - (1 - 0)/2 then none
      else if offset ≤ 0 + (1 - 0)/2 then some (offset + 0/2) else some (offset - 0/2)) =
      some offset
    rw [if_neg (by rintro ⟨ha, hb⟩; linarith)]
    by_cases hc : offset ≤ 0 + (1 - 0)/2
    · rw [if_pos hc]
      norm_num
    · rw [if_neg hc]
      norm_num

theorem C5_closed_door_identity_witness :
    (0 ≤ (1/4 : ℝ) ∧ (1/4 : ℝ) < 1) ∧
      ((LateralDoor.new 0).door_column (1/4) = some (1/4) ∧
        (CentralDoor.new 0).door_column (1/4) = some (1/4)) :=
  ⟨by norm_num, C5_closed_door_identity (1/4) (by norm_num) (by norm_num)⟩

theorem between_mem (v : ℝ) : 0 ≤ between 0 v 1 ∧ between 0 v 1 ≤ 1 := by
  unfold between
  split
  · norm_num
  · split
    · norm_num
    · constructor <;> [linarith [not_lt.mp (by assumption : ¬ v < 0)];
        linarith [not_lt.mp (by assumption : ¬ v > 1)]]

theorem between_eq_of (v : ℝ) (h1 : 0 ≤ v) (h2 : v ≤ 1) : between 0 v 1 = v := by
  unfold between
  rw [if_neg (by linarith), if_neg (by simp; linarith)]

theorem between_eq_one (v : ℝ) (h : 1 ≤ v) : between 0 v 1 = 1 := by
  unfold between
  by_cases hv : v > 1
  · rw [if_neg (by linarith), if_pos hv]
  · rw [if_neg (by linarith), if_neg hv]
    linarith [not_lt.mp hv]

theorem between_eq_zero (v : ℝ) (h : v ≤ 0) : between 0 v 1 = 0 := by
  unfold between
  by_cases hv : v < 0
  · rw [if_pos hv]
  · rw [if_neg hv, if_neg (by linarith [not_lt.mp hv])]
    linarith [not_lt.mp hv]

/-- C6: `elapsed(Δt)` on a `Linear` state yields
`clamp(percentage + sign(activated) · speed · Δt, 0, 1)` (with the `µs → s`
conversion of `SpeedStats::to_units`); the result always stays in `[0,1]`
and saturates at exactly `0` or `1` for arbitrarily large `Δt`; `trigger`
leaves the percentage unchanged, hence also inside `[0,1]`.  (NaN does not
exist in the exact real model.) -/
theorem C6_linear_elapsed_clamp (speed : SpeedStats) (activated : Bool) (percentage : ℝ)
    (openable : Openable) (dt : ℕ) (h1 : 0 ≤ percentage) (h2 : percentage ≤ 1) :
    ((ActionState.linear speed activated percentage openable).elapsed dt =
        ActionState.linear speed activated
          (between 0 (percentage + speed.to_units dt * (if activated then 1 else -1)) 1)
          openable) ∧
      (0 ≤ ((ActionState.linear speed activated percentage openable).elapsed
            dt).activated_percentage ∧
        ((ActionState.linear speed activated percentage openable).elapsed
            dt).activated_percentage ≤ 1) ∧
      (1 ≤ percentage + speed.to_units dt * (if activated then 1 else -1) →
        ((ActionState.linear speed activated percentage openable).elapsed
            dt).activated_percentage = 1) ∧
      (percentage + speed.to_units dt * (if activated then 1 else -1) ≤ 0 →
        ((ActionState.linear speed activated percentage openable).elapsed
            dt).activated_percentage = 0) ∧
      ((ActionState.linear speed activated percentage openable).trigger.activated_percentage =
          percentage ∧
        0 ≤ (ActionState.linear speed activated percentage
            openable).trigger.activated_percentage ∧
        (ActionState.linear speed activated percentage
            openable).trigger.activated_percentage ≤ 1) := by
  have hval : ((ActionState.linear speed activated percentage openable).elapsed
      dt).activated_percentage =
      between 0 (percentage + speed.to_units dt * (if activated then 1 else -1)) 1 := rfl
  refine ⟨rfl, ?_, ?_, ?_, rfl, by rw [show (ActionState.linear speed activated percentage
    openable).trigger.activated_percentage = percentage from rfl]; exact h1,
    by rw [show (ActionState.linear speed activated percentage
      openable).trigger.activated_percentage = percentage from rfl]; exact h2⟩
  · rw [hval]
    exact between_mem _
  · intro hsat
    rw [hval]
    exact between_eq_one _ hsat
  · intro hsat
    rw [hval]
    exact between_eq_zero _ hsat

theorem C6_linear_elapsed_clamp_witness :
    ((0:ℝ) ≤ 1/2 ∧ (1/2:ℝ) ≤ 1) ∧
      (((ActionState.linear ⟨1⟩ true (1/2) .lateral).elapsed 250000 =
          ActionState.linear ⟨1⟩ true
            (between 0 ((1/2) + SpeedStats.to_units ⟨1⟩ 250000 *
              (if (true : Bool) then 1 else -1)) 1) .lateral) ∧
        (0 ≤ ((ActionState.linear ⟨1⟩ true (1/2) .lateral).elapsed
              250000).activated_percentage ∧
          ((ActionState.linear ⟨1⟩ true (1/2) .lateral).elapsed
              250000).activated_percentage ≤ 1) ∧
        (1 ≤ (1/2) + SpeedStats.to_units ⟨1⟩ 250000 * (if (true : Bool) then 1 else -1) →
          ((ActionState.linear ⟨1⟩ true (1/2) .lateral).elapsed
              250000).activated_percentage = 1) ∧
        ((1/2) + SpeedStats.to_units ⟨1⟩ 250000 * (if (true : Bool) then 1 else -1) ≤ 0 →
          ((ActionState.linear ⟨1⟩ true (1/2) .lateral).elapsed
              250000).activated_percentage = 0) ∧
        ((ActionState.linear ⟨1⟩ true (1/2) .lateral).trigger.activated_percentage = 1/2 ∧
          0 ≤ (ActionState.linear ⟨1⟩ true (1/2) .lateral).trigger.activated_percentage ∧
          (ActionState.linear ⟨1⟩ true (1/2) .lateral).trigger.activated_percentage ≤ 1)) :=
  ⟨by norm_num, C6_linear_elapsed_clamp ⟨1⟩ true (1/2) .lateral 250000 (by norm_num)
    (by norm_num)⟩

/-- C7: `trigger()` flips `activated` and leaves percentage, speed and shape
unchanged; consequently a `trigger` issued mid-animation reverses direction
from the current percentage: with speed `1.0/s`, `trigger` then
`elapsed(500000µs)` gives exactly `0.5`, a further `trigger` then
`elapsed(250000µs)` gives exactly `0.25`, and a `trigger` with no `elapsed`
leaves a closed state at exactly `0`. -/
theorem C7_trigger_reverses_mid_animation :
    (∀ (speed : SpeedStats) (activated : Bool) (percentage : ℝ) (openable : Openable),
        (ActionState.linear speed activated percentage openable).trigger =
          ActionState.linear speed (!activated) percentage openable) ∧
      (LinearActionState.new ⟨1⟩ .lateral).trigger.activated_percentage = 0 ∧
      ((LinearActionState.new ⟨1⟩ .lateral).trigger.elapsed 500000).activated_percentage
        = 1/2 ∧
      ((((LinearActionState.new ⟨1⟩ .lateral).trigger.elapsed 500000).trigger.elapsed
          250000).activated_percentage) = 1/4 := by
  have h3 : (LinearActionState.new ⟨1⟩ .lateral).trigger.elapsed 500000 =
      ActionState.linear ⟨1⟩ true (1/2) Openable.lateral := by
    show ActionState.linear ⟨1⟩ true
      (between 0 (0 + ((500000 : ℕ) : ℝ)/1000000 * 1 * 1) 1) Openable.lateral =
      ActionState.linear ⟨1⟩ true (1/2) Openable.lateral
    congr 1
    rw [between_eq_of _ (by norm_num) (by norm_num)]
    norm_num
  refine ⟨fun speed activated percentage openable => rfl, rfl, ?_, ?_⟩
  · rw [h3]
    rfl
  · rw [h3]
    show between 0 ((1:ℝ)/2 + ((250000 : ℕ) : ℝ)/1000000 * 1 * (-1)) 1 = 1/4
    rw [between_eq_of _ (by norm_num) (by norm_num)]
    norm_num

theorem length_nonneg (v : Vector) : 0 ≤ v.length := Real.sqrt_nonneg _

theorem length_eq_zero_iff (v : Vector) : v.length = 0 ↔ v.start = v.end' := by
  unfold Vector.length
  show Real.sqrt ((v.end'.x - v.start.x) * (v.end'.x - v.start.x) +
    (v.end'.y - v.start.y) * (v.end'.y - v.start.y)) = 0 ↔ _
  rw [Real.sqrt_eq_zero (add_nonneg (mul_self_nonneg _) (mul_self_nonneg _))]
  constructor
  · intro h
    have hx : (v.end'.x - v.start.x) * (v.end'.x - v.start.x) = 0 := by
      nlinarith [mul_self_nonneg (v.end'.x - v.start.x), mul_self_nonneg (v.end'.y - v.start.y)]
    have hy : (v.end'.y - v.start.y) * (v.end'.y - v.start.y) = 0 := by
      nlinarith [mul_self_nonneg (v.end'.x - v.start.x), mul_self_nonneg (v.end'.y - v.start.y)]
    have hx' := mul_self_eq_zero.mp hx
    have hy' := mul_self_eq_zero.mp hy
    ext
    · linarith
    · linarith
  · intro h
    rw [h]
    ring

theorem scalar_abs_le (v w : Vector) : |v.scalar w| ≤ v.length * w.length := by
  have hsc : v.scalar w = (v.end'.x - v.start.x) * (w.end'.x - w.start.x) +
      (v.end'.y - v.start.y) * (w.end'.y - w.start.y) := rfl
  have hlen : v.length * w.length =
      Real.sqrt (((v.end'.x - v.start.x) * (v.end'.x - v.start.x) +
          (v.end'.y - v.start.y) * (v.end'.y - v.start.y)) *
        ((w.end'.x - w.start.x) * (w.end'.x - w.start.x) +
          (w.end'.y - w.start.y) * (w.end'.y - w.start.y))) := by
    show Real.sqrt ((v.end'.x - v.start.x) * (v.end'.x - v.start.x) +
        (v.end'.y - v.start.y) * (v.end'.y - v.start.y)) *
      Real.sqrt ((w.end'.x - w.start.x) * (w.end'.x - w.start.x) +
        (w.end'.y - w.start.y) * (w.end'.y - w.start.y)) = _
    rw [← Real.sqrt_mul (add_nonneg (mul_self_nonneg _) (mul_self_nonneg _))]
  rw [hlen, ← Real.sqrt_sq_eq_abs]
  apply Real.sqrt_le_sqrt
  rw [hsc]
  nlinarith [sq_nonneg ((v.end'.x - v.start.x) * (w.end'.y - w.start.y) -
    (v.end'.y - v.start.y) * (w.end'.x - w.start.x))]

theorem rustRem_of_nonneg_lt {r b : ℝ} (hr : 0 ≤ r) (hrb : r < b) : rustRem r b = r := by
  have hb : 0 < b := lt_of_le_of_lt hr hrb
  unfold rustRem rustTrunc
  rw [if_pos (by positivity)]
  have h0 : ⌊r / b⌋ = 0 := by
    rw [Int.floor_eq_zero_iff]
    constructor
    · positivity
    · rw [div_lt_one hb]
      exact hrb
  rw [h0]
  push_cast
  ring

theorem from_angle_length (ar : Angle) : (Vector.new ⟨0, 0⟩ ⟨ar.cos, ar.sin⟩).length = 1 := by
  show Real.sqrt ((ar.cos - 0) * (ar.cos - 0) + (ar.sin - 0) * (ar.sin - 0)) = 1
  rw [show (ar.cos - 0) * (ar.cos - 0) + (ar.sin - 0) * (ar.sin - 0) =
    Real.sin ar.radiant ^ 2 + Real.cos ar.radiant ^ 2 from by
      show _ = Real.sin ar.radiant ^ 2 + Real.cos ar.radiant ^ 2
      unfold Angle.cos Angle.sin
      ring]
  rw [Real.sin_sq_add_cos_sq, Real.sqrt_one]

/-- C9: `Vector::angle(other)` returns `None` if and only if at least one of
the two vectors has zero length (the guard that prevents the `acos` domain
error); zero length means the vector's endpoints coincide. -/
theorem C9_angle_none_iff_zero_length (v w : Vector) :
    (v.angle w = none ↔ v.length = 0 ∨ w.length = 0) ∧
      (v.length = 0 ↔ v.start = v.end') ∧ (w.length = 0 ↔ w.start = w.end') := by
  refine ⟨?_, length_eq_zero_iff v, length_eq_zero_iff w⟩
  unfold Vector.angle
  by_cases h : v.length * w.length = 0
  · rw [if_pos h]
    simp [mul_eq_zero.mp h]
  · rw [if_neg h]
    constructor
    · intro hc
      exact absurd hc (by simp)
    · intro hc
      exact absurd (mul_eq_zero.mpr hc) h

/-- C8: `distance()` is the true Euclidean length from the source point to
the projected point; `distance_no_fish_eye(a)` multiplies it by the absolute
cosine of the angle between the ray's vector and the direction vector of
`a`, which equals `|⟨ray, dir⟩| / (‖ray‖·‖dir‖)`; when the angle is
undefined — which happens exactly when the ray vector has zero length, the
direction vector always having length `1` — the factor `1` is used and the
result is `distance()` itself.  (NaN does not exist in the exact real
model, so the NaN-filter branch of the source is inert.) -/
theorem C8_distance_no_fish_eye (pp : ProjectedPoint) (ar : Angle) :
    pp.distance = Real.sqrt
        ((pp.projected_point.x - pp.source_point.x) *
            (pp.projected_point.x - pp.source_point.x) +
          (pp.projected_point.y - pp.source_point.y) *
            (pp.projected_point.y - pp.source_point.y)) ∧
      ((Vector.new pp.source_point pp.projected_point).angle
          (Vector.new ⟨0, 0⟩ ⟨ar.cos, ar.sin⟩) = none ↔
        pp.source_point = pp.projected_point) ∧
      (∀ β, (Vector.new pp.source_point pp.projected_point).angle
          (Vector.new ⟨0, 0⟩ ⟨ar.cos, ar.sin⟩) = some β →
        pp.distance_no_fish_eye ar = pp.distance * |β.cos| ∧
          pp.distance_no_fish_eye ar = pp.distance *
            (|(Vector.new pp.source_point pp.projected_point).scalar
                (Vector.new ⟨0, 0⟩ ⟨ar.cos, ar.sin⟩)| /
              ((Vector.new pp.source_point pp.projected_point).length *
                (Vector.new ⟨0, 0⟩ ⟨ar.cos, ar.sin⟩).length))) ∧
      ((Vector.new pp.source_point pp.projected_point).angle
          (Vector.new ⟨0, 0⟩ ⟨ar.cos, ar.sin⟩) = none →
        pp.distance_no_fish_eye ar = pp.distance) := by
  refine ⟨rfl, ?_, ?_, ?_⟩
  · rw [show (Vector.new pp.source_point pp.projected_point).angle
        (Vector.new ⟨0, 0⟩ ⟨ar.cos, ar.sin⟩) = none ↔
        (Vector.new pp.source_point pp.projected_point).length = 0 ∨
          (Vector.new ⟨0, 0⟩ ⟨ar.cos, ar.sin⟩).length = 0 from
      (C9_angle_none_iff_zero_length _ _).1]
    rw [from_angle_length]
    simp only [one_ne_zero, or_false]
    exact length_eq_zero_iff _
  · intro β hβ
    have hfac : pp.distance_no_fish_eye ar = pp.distance * |β.cos| := by
      show pp.distance *
        (Option.filter (fun n => !f32_is_nan n)
          (Option.map (fun c => |c|)
            (Option.map (fun a => a.cos)
              ((Vector.new pp.source_point pp.projected_point).angle
                (Vector.new ⟨0, 0⟩ ⟨ar.cos, ar.sin⟩))))).getD 1 = pp.distance * |β.cos|
      rw [hβ]
      rfl
    refine ⟨hfac, ?_⟩
    rw [hfac]
    -- identify `|β.cos|` with the normalized scalar product
    unfold Vector.angle at hβ
    set lenp := (Vector.new pp.source_point pp.projected_point).length *
      (Vector.new ⟨0, 0⟩ ⟨ar.cos, ar.sin⟩).length with hlenp
    by_cases h : lenp = 0
    · rw [if_pos h] at hβ
      exact absurd hβ (by simp)
    · rw [if_neg h] at hβ
      obtain rfl : Angle.new (Real.arccos
          ((Vector.new pp.source_point pp.projected_point).scalar
            (Vector.new ⟨0, 0⟩ ⟨ar.cos, ar.sin⟩) / lenp)) = β :=
        Option.some_injective _ hβ
      have hlen_pos : 0 < lenp := by
        rcases lt_or_eq_of_le (mul_nonneg (length_nonneg _) (length_nonneg _) :
            (0:ℝ) ≤ (Vector.new pp.source_point pp.projected_point).length *
              (Vector.new ⟨0, 0⟩ ⟨ar.cos, ar.sin⟩).length) with hlt | heq
        · exact hlt
        · exact absurd heq.symm h
      have hq_abs : |(Vector.new pp.source_point pp.projected_point).scalar
          (Vector.new ⟨0, 0⟩ ⟨ar.cos, ar.sin⟩) / lenp| ≤ 1 := by
        rw [abs_div, abs_of_pos hlen_pos, div_le_one hlen_pos]
        exact scalar_abs_le _ _
      have hq1 : -1 ≤ (Vector.new pp.source_point pp.projected_point).scalar
          (Vector.new ⟨0, 0⟩ ⟨ar.cos, ar.sin⟩) / lenp := (abs_le.mp hq_abs).1
      have hq2 : (Vector.new pp.source_point pp.projected_point).scalar
          (Vector.new ⟨0, 0⟩ ⟨ar.cos, ar.sin⟩) / lenp ≤ 1 := (abs_le.mp hq_abs).2
      have harc1 : 0 ≤ Real.arccos ((Vector.new pp.source_point pp.projected_point).scalar
          (Vector.new ⟨0, 0⟩ ⟨ar.cos, ar.sin⟩) / lenp) := Real.arccos_nonneg _
      have harc2 : Real.arccos ((Vector.new pp.source_point pp.projected_point).scalar
          (Vector.new ⟨0, 0⟩ ⟨ar.cos, ar.sin⟩) / lenp) < 2 * Real.pi :=
        lt_of_le_of_lt (Real.arccos_le_pi _) (by linarith [Real.pi_pos])
      have hcos : (Angle.new (Real.arccos
          ((Vector.new pp.source_point pp.projected_point).scalar
            (Vector.new ⟨0, 0⟩ ⟨ar.cos, ar.sin⟩) / lenp))).cos =
          (Vector.new pp.source_point pp.projected_point).scalar
            (Vector.new ⟨0, 0⟩ ⟨ar.cos, ar.sin⟩) / lenp := by
        show Real.cos (rustRem (Real.arccos _) (2 * Real.pi)) = _
        rw [rustRem_of_nonneg_lt harc1 harc2]
        exact Real.cos_arccos hq1 hq2
      rw [hcos, abs_div, abs_of_pos hlen_pos]
  · intro hnone
    show pp.distance *
      (Option.filter (fun n => !f32_is_nan n)
        (Option.map (fun c => |c|)
          (Option.map (fun a => a.cos)
            ((Vector.new pp.source_point pp.projected_point).angle
              (Vector.new ⟨0, 0⟩ ⟨ar.cos, ar.sin⟩))))).getD 1 = pp.distance
    rw [hnone]
    show pp.distance * 1 = pp.distance
    rw [mul_one]

theorem rustRem_abs_lt {a b : ℝ} (hb : 0 < b) : |rustRem a b| < b := by
  unfold rustRem rustTrunc
  by_cases h : 0 ≤ a / b
  · rw [if_pos h]
    have h1 : ((⌊a / b⌋ : ℤ) : ℝ) * b ≤ a := by
      rw [← le_div_iff hb]
      exact Int.floor_le _
    have h2 : a < (((⌊a / b⌋ : ℤ) : ℝ) + 1) * b := by
      rw [← div_lt_iff hb]
      exact Int.lt_floor_add_one _
    rw [abs_lt]
    constructor <;> nlinarith
  · rw [if_neg h]
    have h1 : a ≤ ((⌈a / b⌉ : ℤ) : ℝ) * b := by
      rw [← div_le_iff hb]
      exact Int.le_ceil _
    have h2 : (((⌈a / b⌉ : ℤ) : ℝ) - 1) * b < a := by
      rw [← lt_div_iff hb]
      linarith [Int.ceil_lt_add_one (a / b)]
    rw [abs_lt]
    constructor <;> nlinarith

/-- C10: `Angle::new(r)` stores `r % 2π` (sign-preserving remainder, so the
stored radian always lies strictly inside `(-2π, 2π)`), but `Angle::add`
does not renormalize: the raw radian of the sum is exactly the sum of the
raw radians and can lie outside `(-2π, 2π)` (e.g. `π + 3π/2 = 5π/2 > 2π`);
only `Angle::addition` renormalizes through `Angle::new`. -/
theorem C10_add_does_not_renormalize :
    (∀ r : ℝ, (Angle.new r).to_radiant = rustRem r (2 * Real.pi)) ∧
      (∀ a b : Angle, (a.add b).to_radiant = a.to_radiant + b.to_radiant) ∧
      (∀ r : ℝ, |(Angle.new r).to_radiant| < 2 * Real.pi) ∧
      (((Angle.new Real.pi).add (Angle.new (3 * Real.pi / 2))).to_radiant =
          5 * Real.pi / 2 ∧ 2 * Real.pi < 5 * Real.pi / 2) ∧
      (∀ a b : Angle, (a.addition b).to_radiant =
        rustRem (a.to_radiant + b.to_radiant) (2 * Real.pi)) := by
  have hπ := Real.pi_pos
  refine ⟨fun r => rfl, fun a b => rfl, ?_, ⟨?_, by linarith⟩, fun a b => rfl⟩
  · intro r
    exact rustRem_abs_lt (by linarith)
  · show rustRem Real.pi (2 * Real.pi) + rustRem (3 * Real.pi / 2) (2 * Real.pi) =
      5 * Real.pi / 2
    rw [rustRem_of_nonneg_lt (by linarith) (by linarith),
      rustRem_of_nonneg_lt (by linarith) (by linarith)]
    ring

end Wolfengate
